/-
Verification development for the godbolt-tester repository.

Shallow embedding of the source-instrumentation engine (src/godbolt.py)
and the test-matrix orchestrator (src/runner.py).  Text is modelled as
`List Char`; Python regular expressions used by the code are embedded as
specialised backtracking matchers faithful to the patterns in the source.
Python's `\s`, `\w` and `\d` character classes are modelled on the ASCII
range (the texts manipulated by the instrumentation engine are ASCII).
-/
import Mathlib

set_option maxRecDepth 100000

namespace GodboltSpec

/-! ## Basic text utilities (texts as `List Char`) -/

/-- Python `\s` on the ASCII range: space, tab, newline, CR, VT, FF. -/
def wsChar (c : Char) : Bool :=
  c = ' ' || c = '\t' || c = '\n' || c = '\r' || c = '\x0b' || c = '\x0c'

/-- `swL pat t` : `t` starts with `pat`. -/
def swL : List Char → List Char → Bool
  | [], _ => true
  | _ :: _, [] => false
  | p :: ps, c :: cs => p = c && swL ps cs

/-- `hasSub pat t` : `pat` occurs somewhere in `t` (Python `pat in t`). -/
def hasSub (pat : List Char) : List Char → Bool
  | [] => swL pat []
  | c :: cs => swL pat (c :: cs) || hasSub pat cs

/-- Number of positions of `t` at which `pat` occurs. -/
def countOcc (pat : List Char) : List Char → Nat
  | [] => if swL pat [] then 1 else 0
  | c :: cs => (if swL pat (c :: cs) then 1 else 0) + countOcc pat cs

/-- `pat` occurs in `t` at position `q`. -/
def occursAt (pat t : List Char) (q : Nat) : Prop :=
  swL pat (t.drop q) = true

/-- Split on newline (Python `str.split('\n')`): always at least one part. -/
def splitNl : List Char → List (List Char)
  | [] => [[]]
  | c :: cs =>
    if c = '\n' then [] :: splitNl cs
    else
      match splitNl cs with
      | [] => [[c]]
      | l :: ls => (c :: l) :: ls

/-- Join with newline (Python `'\n'.join`). -/
def joinNl : List (List Char) → List Char
  | [] => []
  | [l] => l
  | l :: l₂ :: ls => l ++ '\n' :: joinNl (l₂ :: ls)

/-! ## Lemmas about the text utilities -/

theorem swL_append_self (s r : List Char) : swL s (s ++ r) = true := by
  induction s with
  | nil => rfl
  | cons c cs ih => simp [swL, ih]

theorem swL_eq_append {p t : List Char} (h : swL p t = true) :
    ∃ r, t = p ++ r := by
  induction p generalizing t with
  | nil => exact ⟨t, rfl⟩
  | cons c cs ih =>
    cases t with
    | nil => simp [swL] at h
    | cons d ds =>
      simp only [swL, Bool.and_eq_true, decide_eq_true_eq] at h
      obtain ⟨r, hr⟩ := ih h.2
      exact ⟨r, by simp [h.1, hr]⟩

theorem swL_length {p t : List Char} (h : swL p t = true) :
    p.length ≤ t.length := by
  obtain ⟨r, hr⟩ := swL_eq_append h
  simp [hr]

theorem swL_through_nl {p : List Char} (hnl : '\n' ∉ p) (x y : List Char) :
    swL p (x ++ '\n' :: y) = swL p x := by
  induction p generalizing x with
  | nil => rfl
  | cons c cs ih =>
    cases x with
    | nil =>
      have hc : c ≠ '\n' := fun h => hnl (h ▸ List.mem_cons_self c cs)
      simp [swL, hc]
    | cons d ds =>
      have : '\n' ∉ cs := fun h => hnl (List.mem_cons_of_mem c h)
      simp [swL, ih this]

theorem countOcc_nil (p : List Char) (h : p ≠ []) : countOcc p [] = 0 := by
  cases p with
  | nil => simp at h
  | cons c cs => simp [countOcc, swL]

theorem countOcc_cons (p : List Char) (c : Char) (cs : List Char) :
    countOcc p (c :: cs) =
      (if swL p (c :: cs) = true then 1 else 0) + countOcc p cs := rfl

theorem countOcc_nl_split {p : List Char} (hne : p ≠ []) (hnl : '\n' ∉ p)
    (a b : List Char) :
    countOcc p (a ++ '\n' :: b) = countOcc p a + countOcc p b := by
  induction a with
  | nil =>
    obtain ⟨c, cs, rfl⟩ : ∃ c cs, p = c :: cs := by
      cases p with
      | nil => exact absurd rfl hne
      | cons c cs => exact ⟨c, cs, rfl⟩
    have hc : c ≠ '\n' := fun h => hnl (h ▸ List.mem_cons_self c cs)
    rw [List.nil_append, countOcc_cons, countOcc_nil _ hne]
    simp [swL, hc]
  | cons c a' ih =>
    have hsw : swL p (c :: (a' ++ '\n' :: b)) = swL p (c :: a') := by
      have := swL_through_nl hnl (c :: a') b
      rwa [show (c :: a') ++ '\n' :: b = c :: (a' ++ '\n' :: b) from rfl] at this
    rw [show (c :: a') ++ '\n' :: b = c :: (a' ++ '\n' :: b) from rfl,
      countOcc_cons, countOcc_cons, hsw, ih]
    omega

theorem countOcc_short {p t : List Char} (h : t.length < p.length) :
    countOcc p t = 0 := by
  induction t with
  | nil =>
    cases p with
    | nil => simp at h
    | cons c cs => simp [countOcc, swL]
  | cons c cs ih =>
    have h1 : swL p (c :: cs) = false := by
      by_contra hh
      have := swL_length (by simpa using Bool.of_not_eq_false hh)
      omega
    have h2 : cs.length < p.length := by simp at h ⊢; omega
    simp [countOcc, h1, ih h2]

theorem countOcc_self {p : List Char} (h : p ≠ []) : countOcc p p = 1 := by
  cases p with
  | nil => simp at h
  | cons c cs =>
    have : countOcc (c :: cs) cs = 0 := countOcc_short (by simp)
    simp [countOcc, swL_append_self (c :: cs) [], this,
      show swL (c :: cs) (c :: cs) = true by
        simpa using swL_append_self (c :: cs) []]

theorem countOcc_nl_replicate {p : List Char} (hne : p ≠ []) (hnl : '\n' ∉ p)
    (k : Nat) : countOcc p (List.replicate k '\n') = 0 := by
  induction k with
  | zero => simpa using countOcc_nil p hne
  | succ n ih =>
    have : List.replicate (n + 1) '\n' =
        ([] : List Char) ++ '\n' :: List.replicate n '\n' := by
      simp [List.replicate]
    rw [this, countOcc_nl_split hne hnl, ih, countOcc_nil p hne]

theorem countOcc_append_nl_replicate {p : List Char} (hne : p ≠ [])
    (hnl : '\n' ∉ p) (a : List Char) (k : Nat) :
    countOcc p (a ++ List.replicate k '\n') = countOcc p a := by
  induction k generalizing a with
  | zero => simp
  | succ n ih =>
    rw [show List.replicate (n + 1) '\n' = '\n' :: List.replicate n '\n' from rfl,
      countOcc_nl_split hne hnl, countOcc_nl_replicate hne hnl]
    omega

theorem splitNl_ne_nil (t : List Char) : splitNl t ≠ [] := by
  cases t with
  | nil => simp [splitNl]
  | cons c cs =>
    simp only [splitNl]
    split
    · simp
    · cases h : splitNl cs <;> simp

theorem joinNl_cons {ls : List (List Char)} (h : ls ≠ []) (l : List Char) :
    joinNl (l :: ls) = l ++ '\n' :: joinNl ls := by
  cases ls with
  | nil => simp at h
  | cons x xs => rfl

theorem joinNl_splitNl (t : List Char) : joinNl (splitNl t) = t := by
  induction t with
  | nil => rfl
  | cons c cs ih =>
    simp only [splitNl]
    split
    · next hc =>
      rw [joinNl_cons (splitNl_ne_nil cs)]
      simp [hc, ih]
    · next hc =>
      rcases hsp : splitNl cs with _ | ⟨l, ls⟩
      · exact absurd hsp (splitNl_ne_nil cs)
      · rw [hsp] at ih
        cases ls with
        | nil => simp [joinNl] at ih ⊢; exact ih
        | cons y ys =>
          rw [joinNl_cons (by simp)] at ih ⊢
          simp [ih]

theorem no_nl_mem_splitNl (t : List Char) : ∀ l ∈ splitNl t, '\n' ∉ l := by
  induction t with
  | nil => intro l hl; simp [splitNl] at hl; simp [hl]
  | cons c cs ih =>
    intro l hl
    simp only [splitNl] at hl
    split at hl
    · rcases List.mem_cons.1 hl with h | h
      · simp [h]
      · exact ih l h
    · next hc =>
      rcases hsp : splitNl cs with _ | ⟨x, xs⟩
      · exact absurd hsp (splitNl_ne_nil cs)
      · rw [hsp] at hl
        rcases List.mem_cons.1 hl with h | h
        · subst h
          intro hmem
          rcases List.mem_cons.1 hmem with h | h
          · exact hc h.symm
          · exact ih x (hsp ▸ List.mem_cons_self x xs) h
        · exact ih l (hsp ▸ List.mem_cons_of_mem x h)

theorem splitNl_no_nl {l : List Char} (h : '\n' ∉ l) : splitNl l = [l] := by
  induction l with
  | nil => rfl
  | cons c cs ih =>
    have hc : ¬(c = '\n') := fun hh => h (hh ▸ List.mem_cons_self c cs)
    have hcs : '\n' ∉ cs := fun hh => h (List.mem_cons_of_mem c hh)
    simp [splitNl, hc, ih hcs]

theorem splitNl_cons (c : Char) (cs : List Char) :
    splitNl (c :: cs) =
      if c = '\n' then [] :: splitNl cs
      else
        match splitNl cs with
        | [] => [[c]]
        | l :: ls => (c :: l) :: ls := rfl

theorem splitNl_append_nl {l : List Char} (h : '\n' ∉ l) (rest : List Char) :
    splitNl (l ++ '\n' :: rest) = l :: splitNl rest := by
  induction l with
  | nil => simp [splitNl]
  | cons c cs ih =>
    have hc : ¬(c = '\n') := fun hh => h (hh ▸ List.mem_cons_self c cs)
    have hcs : '\n' ∉ cs := fun hh => h (List.mem_cons_of_mem c hh)
    rw [show (c :: cs) ++ '\n' :: rest = c :: (cs ++ '\n' :: rest) from rfl,
      splitNl_cons, if_neg hc, ih hcs]

theorem splitNl_joinNl {ls : List (List Char)} (h1 : ls ≠ [])
    (h2 : ∀ l ∈ ls, '\n' ∉ l) : splitNl (joinNl ls) = ls := by
  induction ls with
  | nil => simp at h1
  | cons l ls ih =>
    cases ls with
    | nil =>
      simp only [joinNl]
      exact splitNl_no_nl (h2 l (List.mem_cons_self l []))
    | cons y ys =>
      rw [joinNl_cons (by simp)]
      rw [splitNl_append_nl (h2 l (List.mem_cons_self l (y :: ys)))]
      rw [ih (by simp) (fun x hx => h2 x (List.mem_cons_of_mem l hx))]

/-! ## Report builder (src/runner.py, `status_icon`) -/

/-- Model of `runner.TestResult` (the dataclass of a completed job). -/
structure TestResultR where
  test_name : String
  group : String
  variant : String
  variant_display : String
  is_auto : Bool
  detect_value : Option Int
  compiler_nickname : Option String
  compiler_display : String
  compiler_api : String
  stage : String
  passed : Bool
  has_warnings : Bool
  has_errors : Bool
  api_error : Bool
  impl_value : Option Int
  files : List (String × String)
  stderrLog : List (String × String)
deriving Repr, DecidableEq

/-- Model of `runner.status_icon`. -/
def statusIcon : Option TestResultR → String
  | none => "—"
  | some r =>
    if r.api_error then ""
    else
      (if r.passed then "✅"
       else if r.stage = "preprocessing" || r.stage = "compilation" then "❌"
       else "⚠️") ++
      (if r.has_warnings && r.passed then "ℹ️" else "")

/-- C10: in the report builder, the cell symbol for a result whose
`api_error` flag is set is the empty string, which is distinct from the
"no result" em-dash produced when no result exists for that cell, and
distinct from every pass/failure symbol produced for a non-`api_error`
result. -/
theorem c10_status_icon_api_error :
    (∀ r : TestResultR, r.api_error = true → statusIcon (some r) = "") ∧
    statusIcon none = "—" ∧
    ("" : String) ≠ "—" ∧
    (∀ r : TestResultR, r.api_error = false →
      statusIcon (some r) ≠ "" ∧ statusIcon (some r) ≠ "—") := by
  refine ⟨fun r h => by simp [statusIcon, h], rfl, by decide, fun r h => ?_⟩
  simp only [statusIcon, h]
  by_cases hp : r.passed <;>
    by_cases hw : r.has_warnings <;>
      by_cases hs : r.stage = "preprocessing" || r.stage = "compilation" <;>
        simp [hp, hw, hs]

/-- Witness for C10 at a concrete result record. -/
theorem c10_status_icon_api_error_witness :
    statusIcon (some (TestResultR.mk "t" "g" "v" "v" false none none "gcc"
      "cg152" "preprocessing" false false false true none [] [])) = "" :=
  c10_status_icon_api_error.1 _ rfl

/-! ## Test configuration parsing (src/runner.py, `parse_tests`,
`TestVariant.from_dict`)

A YAML mapping (variant dict or group-defaults dict) is modelled as a
record of optional fields; `none` models an absent key. -/

/-- The keys of a test/group mapping read by `TestVariant.from_dict`. -/
structure VarDict where
  group : Option String := none
  variant : Option String := none
  name : Option String := none
  test_name : Option String := none
  auto : Option Bool := none
  file_name : Option String := none
  display_name : Option String := none
  detect_macro : Option String := none
  detect_value : Option Int := none
  include_in_table : Option Bool := none
  prepend_lines : List String := []
  additional_files : List String := []
  include_dirs : List String := []
  include_directories : List String := []
deriving Repr, DecidableEq

/-- A `tests:` entry: its own mapping plus an optional `variants` list. -/
structure CfgEntry where
  dict : VarDict
  variants : Option (List VarDict) := none
deriving Repr, DecidableEq

/-- Model of `runner.TestVariant` (parsed test variant). -/
structure TestVariant where
  test_name : String
  variant : String
  group : String
  file_name : String
  display_name : String
  prepend_lines : List String
  detect_macro : Option String
  detect_value : Option Int
  is_auto : Bool
  include_in_table : Bool
  additional_files : List (String × String)
  include_dirs : List String
deriving Repr, DecidableEq

/-- Python truthiness-based `a or b` for an optional string. -/
def pyOrStr (a : Option String) (b : String) : String :=
  match a with
  | some s => if s = "" then b else s
  | none => b

/-- `merge_lists`: copy of the base list, then each extra item appended
unless already present. -/
def mergeDedup (base extra : List String) : List String :=
  extra.foldl (fun acc item => if item ∈ acc then acc else acc ++ [item]) base

/-- Model of `TestVariant.from_dict d group_defaults`. -/
def fromDict (d g : VarDict) : TestVariant :=
  let group := g.group.getD "default"
  let variant := pyOrStr d.variant (pyOrStr d.name (pyOrStr d.test_name ""))
  let test_name := pyOrStr d.test_name (group ++ "_" ++ variant)
  let is_auto := d.auto.getD (g.auto.getD false)
  let file_name := d.file_name.getD (g.file_name.getD "")
  let display_name := d.display_name.getD (g.display_name.getD variant)
  let detect_macro := d.detect_macro.orElse (fun _ => g.detect_macro)
  let detect_value := d.detect_value.orElse (fun _ => g.detect_value)
  let include_in_table :=
    match d.include_in_table with
    | some b => b
    | none =>
      match g.include_in_table with
      | some b => b
      | none => !is_auto
  let prepend_lines := mergeDedup g.prepend_lines d.prepend_lines
  let additional_files :=
    (mergeDedup g.additional_files d.additional_files).map (fun f => (f, f))
  let include_dirs :=
    mergeDedup
      (mergeDedup (mergeDedup (mergeDedup [] g.include_dirs)
        g.include_directories) d.include_dirs) d.include_directories
  TestVariant.mk test_name variant group file_name display_name
    prepend_lines detect_macro detect_value is_auto include_in_table
    additional_files include_dirs

/-- Model of `runner.parse_tests` on the `tests:` list of the config. -/
def parseTests (cfg : List CfgEntry) : List TestVariant :=
  cfg.flatMap fun e =>
    match e.variants with
    | some vs => vs.map (fun v => fromDict v e.dict)
    | none => [fromDict e.dict { group := some (e.dict.group.getD "default") }]

/-- Number of parsed variants marked auto in a given group. -/
def countAutoInGroup (g : String) (ts : List TestVariant) : Nat :=
  ts.countP (fun t => t.is_auto && t.group == g)

/-- The effective auto flag of a variant mapping under group defaults. -/
def effAuto (d g : VarDict) : Bool := d.auto.getD (g.auto.getD false)

/-- Per-entry count of configured variants whose effective auto flag is
set, for a given group name. -/
def specAutoCount (gname : String) (e : CfgEntry) : Nat :=
  match e.variants with
  | some vs =>
    if e.dict.group.getD "default" = gname
    then vs.countP (fun v => effAuto v e.dict) else 0
  | none =>
    if e.dict.group.getD "default" = gname && effAuto e.dict {} then 1 else 0

/-- C9 counterexample: the parser performs no per-group uniqueness
validation of the auto flag.  A configuration whose one group contains
two variants with `auto: true` parses to two auto variants in that
group. -/
theorem c9_two_auto_variants_cex :
    countAutoInGroup "g"
      (parseTests [CfgEntry.mk { group := some "g" }
        (some [{ variant := some "a1", auto := some true },
               { variant := some "a2", auto := some true }])]) = 2 := by
  decide

/-- C9 (amended): the parser marks a variant auto exactly when the
variant's own `auto` field, defaulting to the group-level `auto` field,
is set; it performs no validation, so for every group name the number of
parsed auto variants in that group equals the number of configured
variant mappings with a set effective auto flag in entries of that
group. -/
theorem c9_auto_flag_parse :
    (∀ d g : VarDict, (fromDict d g).is_auto = effAuto d g) ∧
    (∀ (cfg : List CfgEntry) (gname : String),
      countAutoInGroup gname (parseTests cfg) =
        (cfg.map (specAutoCount gname)).sum) := by
  constructor
  · intro d g; rfl
  · intro cfg gname
    induction cfg with
    | nil => rfl
    | cons e es ih =>
      have hstep : parseTests (e :: es) =
          (match e.variants with
           | some vs => vs.map (fun v => fromDict v e.dict)
           | none => [fromDict e.dict
               { group := some (e.dict.group.getD "default") }]) ++
          parseTests es := by
        simp [parseTests]
      rw [countAutoInGroup, hstep, List.countP_append]
      rw [countAutoInGroup] at ih
      rw [List.map_cons, List.sum_cons, ih]
      congr 1
      cases hv : e.variants with
      | none =>
        simp only [specAutoCount, hv]
        by_cases hg : e.dict.group.getD "default" = gname
        · simp [List.countP_cons, fromDict, effAuto, hg, pyOrStr]
        · simp [List.countP_cons, fromDict, effAuto, hg, pyOrStr]
      | some vs =>
        simp only [specAutoCount, hv, List.countP_map]
        by_cases hg : e.dict.group.getD "default" = gname
        · rw [if_pos hg]
          apply List.countP_congr
          intro v _
          simp [Function.comp, fromDict, effAuto, hg]
        · rw [if_neg hg]
          apply List.countP_eq_zero.2
          intro v _
          have hgr : (fromDict v e.dict).group = e.dict.group.getD "default" :=
            rfl
          simp [Function.comp, hgr, hg]

/-! ## The GodboltProject state (src/godbolt.py)

Only the fields manipulated by the specified operations are modelled.
The remote API response is modelled by the one field the preprocess
pipeline reads (`ppOutput.output`). -/

/-- Model of the part of an API response read by `preprocess`. -/
structure Resp where
  ppOutput : Option (List Char)
deriving Repr, DecidableEq

/-- Model of the mutable state of a `GodboltProject`. -/
structure Proj where
  source : List Char
  macroProbes : List (List Char)
  macroValues : List (List Char × Int)
  includeProbes : List (List Char × List Char)
  originalSource : Option (List Char)
  lastResponse : Option Resp
deriving Repr, DecidableEq

/-- Python `str.rstrip('\n')`. -/
def rstripNl (t : List Char) : List Char :=
  (t.reverse.dropWhile (fun c => c = '\n')).reverse

/-- The probe declaration appended by `inject_macro_probe` (without the
surrounding newlines). -/
def macroProbeDecl (name : List Char) : List Char :=
  "int __GODBOLT_MACRO_PROBE_".data ++ name ++ "__ = (int)(".data ++
    name ++ ");".data

/-- Model of `GodboltProject.inject_macro_probe`. -/
def injectMacroProbe (name : List Char) (p : Proj) : Proj :=
  if name ∈ p.macroProbes then p
  else
    { p with
      macroProbes := p.macroProbes ++ [name]
      source := rstripNl p.source ++ '\n' :: (macroProbeDecl name ++ ['\n']) }

theorem rstripNl_spec (t : List Char) :
    ∃ k, t = rstripNl t ++ List.replicate k '\n' := by
  refine ⟨(t.reverse.takeWhile (fun c => decide (c = '\n'))).length, ?_⟩
  have h1 := List.takeWhile_append_dropWhile
    (p := fun c => decide (c = '\n')) (l := t.reverse)
  have h2 : (t.reverse.takeWhile (fun c => decide (c = '\n'))).reverse =
      List.replicate
        (t.reverse.takeWhile (fun c => decide (c = '\n'))).length '\n' := by
    have hall : ∀ b ∈ (t.reverse.takeWhile
        (fun c => decide (c = '\n'))).reverse, b = '\n' := by
      intro b hb
      have := List.mem_takeWhile_imp (List.mem_reverse.1 hb)
      simpa using this
    have := List.eq_replicate_of_mem hall
    simpa using this
  conv_lhs => rw [← List.reverse_reverse t, ← h1]
  rw [List.reverse_append, h2]
  rfl

theorem macroProbeDecl_ne_nil (name : List Char) : macroProbeDecl name ≠ [] := by
  simp [macroProbeDecl]

theorem macroProbeDecl_no_nl {name : List Char} (h : '\n' ∉ name) :
    '\n' ∉ macroProbeDecl name := by
  intro hmem
  rw [macroProbeDecl] at hmem
  simp only [List.mem_append] at hmem
  rcases hmem with (((h1 | h2) | h3) | h4) | h5
  · revert h1; decide
  · exact h h2
  · revert h3; decide
  · exact h h4
  · revert h5; decide

/-- C6: macro probe injection is idempotent per name; a first injection
of a fresh name appends exactly one probe declaration after trimming
trailing newlines from the current source. -/
theorem c6_inject_idempotent :
    (∀ (name : List Char) (p : Proj),
      injectMacroProbe name (injectMacroProbe name p) =
        injectMacroProbe name p) ∧
    (∀ (name : List Char) (p : Proj), name ∉ p.macroProbes → '\n' ∉ name →
      (injectMacroProbe name p).source =
        rstripNl p.source ++ '\n' :: (macroProbeDecl name ++ ['\n']) ∧
      (injectMacroProbe name p).macroProbes = p.macroProbes ++ [name] ∧
      countOcc (macroProbeDecl name) (injectMacroProbe name p).source =
        countOcc (macroProbeDecl name) p.source + 1) := by
  constructor
  · intro name p
    by_cases h : name ∈ p.macroProbes
    · simp [injectMacroProbe, h]
    · have h2 : name ∈ (injectMacroProbe name p).macroProbes := by
        simp [injectMacroProbe, h]
      conv_lhs => rw [injectMacroProbe, if_pos h2]
  · intro name p hfresh hnl
    have hne := macroProbeDecl_ne_nil name
    have hdn := macroProbeDecl_no_nl hnl
    refine ⟨by simp [injectMacroProbe, hfresh],
      by simp [injectMacroProbe, hfresh], ?_⟩
    have hsrc : (injectMacroProbe name p).source =
        rstripNl p.source ++ '\n' :: (macroProbeDecl name ++ ['\n']) := by
      simp [injectMacroProbe, hfresh]
    rw [hsrc, countOcc_nl_split hne hdn]
    have h2 : macroProbeDecl name ++ ['\n'] =
        macroProbeDecl name ++ '\n' :: [] := rfl
    rw [h2, countOcc_nl_split hne hdn, countOcc_self hne, countOcc_nil _ hne]
    obtain ⟨k, hk⟩ := rstripNl_spec p.source
    conv_rhs => rw [hk]
    rw [countOcc_append_nl_replicate hne hdn]

/-- Witness for C6: a fresh probe injection on a concrete project. -/
theorem c6_inject_idempotent_witness :
    (injectMacroProbe "N".data
      (Proj.mk "int x;\n\n".data [] [] [] none none)).source =
      rstripNl "int x;\n\n".data ++
        '\n' :: (macroProbeDecl "N".data ++ ['\n']) ∧
    (injectMacroProbe "N".data
      (Proj.mk "int x;\n\n".data [] [] [] none none)).macroProbes =
      [] ++ ["N".data] ∧
    countOcc (macroProbeDecl "N".data)
      (injectMacroProbe "N".data
        (Proj.mk "int x;\n\n".data [] [] [] none none)).source =
      countOcc (macroProbeDecl "N".data) "int x;\n\n".data + 1 :=
  c6_inject_idempotent.2 "N".data
    (Proj.mk "int x;\n\n".data [] [] [] none none)
    (by decide) (by decide)

/-! ## Probe-line stripping (src/godbolt.py,
`_strip_macro_probes_from_output`) -/

/-- The marker substring identifying a probe line for a macro name. -/
def macroMarker (name : List Char) : List Char :=
  "__GODBOLT_MACRO_PROBE_".data ++ name ++ "__".data

/-- A line is a probe line when it contains some registered marker. -/
def lineIsProbe (probes : List (List Char)) (l : List Char) : Bool :=
  probes.any (fun n => hasSub (macroMarker n) l)

/-- Model of `GodboltProject._strip_macro_probes_from_output`. -/
def stripMacroProbes (probes : List (List Char)) (t : List Char) : List Char :=
  if probes = [] then t
  else joinNl ((splitNl t).filter (fun l => !(lineIsProbe probes l)))

theorem macroMarker_ne_nil (name : List Char) : macroMarker name ≠ [] := by
  simp [macroMarker]

theorem hasSub_nil_eq_false {p : List Char} (h : p ≠ []) :
    hasSub p [] = false := by
  cases p with
  | nil => simp at h
  | cons c cs => rfl

theorem lineIsProbe_nil (probes : List (List Char)) :
    lineIsProbe probes [] = false := by
  simp only [lineIsProbe, List.any_eq_false]
  intro n _
  simp [hasSub_nil_eq_false (macroMarker_ne_nil n)]

/-- C7: with a non-empty set of registered probe names, after stripping
no line of the output contains any registered probe marker, and the
lines free of markers are preserved verbatim and in order (they are
exactly the output lines whenever at least one line survives). -/
theorem c7_strip_probe_lines (probes : List (List Char)) (t : List Char)
    (hne : probes ≠ []) :
    (∀ l ∈ splitNl (stripMacroProbes probes t),
      lineIsProbe probes l = false) ∧
    ((splitNl t).filter (fun l => !(lineIsProbe probes l)) ≠ [] →
      splitNl (stripMacroProbes probes t) =
        (splitNl t).filter (fun l => !(lineIsProbe probes l))) ∧
    List.Sublist ((splitNl t).filter (fun l => !(lineIsProbe probes l)))
      (splitNl (stripMacroProbes probes t)) := by
  have hdef : stripMacroProbes probes t =
      joinNl ((splitNl t).filter (fun l => !(lineIsProbe probes l))) := by
    simp [stripMacroProbes, hne]
  by_cases hkeep : (splitNl t).filter (fun l => !(lineIsProbe probes l)) = []
  · refine ⟨?_, fun h => absurd hkeep h, ?_⟩
    · intro l hl
      rw [hdef, hkeep] at hl
      have : l = [] := by
        simpa [joinNl, splitNl] using hl
      rw [this]
      exact lineIsProbe_nil probes
    · rw [hkeep]
      simp
  · have hlines : splitNl (stripMacroProbes probes t) =
        (splitNl t).filter (fun l => !(lineIsProbe probes l)) := by
      rw [hdef]
      apply splitNl_joinNl hkeep
      intro l hl
      exact no_nl_mem_splitNl t l (List.mem_of_mem_filter hl)
    refine ⟨?_, fun _ => hlines, by rw [hlines]⟩
    intro l hl
    rw [hlines] at hl
    have := List.of_mem_filter hl
    simpa using this

/-- Witness for C7 on a concrete preprocessed text with one probe. -/
theorem c7_strip_probe_lines_witness :
    (∀ l ∈ splitNl (stripMacroProbes ["M".data]
        "int a;\nint __GODBOLT_MACRO_PROBE_M__ = (int)(7);\nint b;".data),
      lineIsProbe ["M".data] l = false) ∧
    ((splitNl "int a;\nint __GODBOLT_MACRO_PROBE_M__ = (int)(7);\nint b;".data).filter
        (fun l => !(lineIsProbe ["M".data] l)) ≠ [] →
      splitNl (stripMacroProbes ["M".data]
          "int a;\nint __GODBOLT_MACRO_PROBE_M__ = (int)(7);\nint b;".data) =
        (splitNl "int a;\nint __GODBOLT_MACRO_PROBE_M__ = (int)(7);\nint b;".data).filter
          (fun l => !(lineIsProbe ["M".data] l))) ∧
    List.Sublist
      ((splitNl "int a;\nint __GODBOLT_MACRO_PROBE_M__ = (int)(7);\nint b;".data).filter
        (fun l => !(lineIsProbe ["M".data] l)))
      (splitNl (stripMacroProbes ["M".data]
        "int a;\nint __GODBOLT_MACRO_PROBE_M__ = (int)(7);\nint b;".data)) :=
  c7_strip_probe_lines ["M".data]
    "int a;\nint __GODBOLT_MACRO_PROBE_M__ = (int)(7);\nint b;".data
    (by decide)

/-! ## Backtracking matcher combinators

These model the concrete regular expressions used in src/godbolt.py as
specialised matchers.  Alternatives are tried in the order the Python
regex engine tries them (greedy quantifiers prefer the longest
consumption, optional groups prefer presence). -/

/-- Consume a literal; return the rest on success. -/
def eatLit : List Char → List Char → Option (List Char)
  | [], t => some t
  | _ :: _, [] => none
  | p :: ps, c :: cs => if p = c then eatLit ps cs else none

/-- Greedy `\s*` followed by a continuation (longest match first, with
backtracking). -/
def wsStarThen (k : List Char → Option (List Char)) :
    List Char → Option (List Char)
  | [] => k []
  | c :: cs =>
    if wsChar c then (wsStarThen k cs).orElse (fun _ => k (c :: cs))
    else k (c :: cs)

/-- Greedy `\s+` followed by a continuation. -/
def wsPlusThen (k : List Char → Option (List Char)) :
    List Char → Option (List Char)
  | [] => none
  | c :: cs =>
    if wsChar c then (wsPlusThen k cs).orElse (fun _ => k cs)
    else none

theorem eatLit_append (x r : List Char) : eatLit x (x ++ r) = some r := by
  induction x with
  | nil => rfl
  | cons c cs ih => simp [eatLit, ih]

theorem eatLit_eq_append {x t r : List Char} (h : eatLit x t = some r) :
    t = x ++ r := by
  induction x generalizing t with
  | nil => simpa [eatLit] using h
  | cons c cs ih =>
    cases t with
    | nil => simp [eatLit] at h
    | cons d ds =>
      by_cases hc : c = d
      · subst hc
        simp only [eatLit, if_pos rfl] at h
        simp [ih h]
      · simp [eatLit, hc] at h

theorem eatLit_swL {x t r : List Char} (h : eatLit x t = some r) :
    swL x t = true := by
  rw [eatLit_eq_append h]
  exact swL_append_self x r

theorem wsStarThen_eq {k : List Char → Option (List Char)} {t r : List Char}
    (h : wsStarThen k t = some r) :
    ∃ w t₂, t = w ++ t₂ ∧ (∀ c ∈ w, wsChar c = true) ∧ k t₂ = some r := by
  induction t with
  | nil => exact ⟨[], [], rfl, by simp, h⟩
  | cons c cs ih =>
    by_cases hc : wsChar c
    · rw [wsStarThen, if_pos (by simp [hc])] at h
      rcases ho : wsStarThen k cs with _ | v
      · rw [ho] at h
        exact ⟨[], c :: cs, rfl, by simp, h⟩
      · rw [ho] at h
        have hv : v = r := Option.some.inj h
        subst hv
        obtain ⟨w, t₂, h1, h2, h3⟩ := ih ho
        refine ⟨c :: w, t₂, by simp [h1], ?_, h3⟩
        intro x hx
        rcases List.mem_cons.1 hx with hx | hx
        · rw [hx]; exact hc
        · exact h2 x hx
    · rw [wsStarThen, if_neg (by simp [hc])] at h
      exact ⟨[], c :: cs, rfl, by simp, h⟩

theorem wsPlusThen_eq {k : List Char → Option (List Char)} {t r : List Char}
    (h : wsPlusThen k t = some r) :
    ∃ w t₂, t = w ++ t₂ ∧ w ≠ [] ∧ (∀ c ∈ w, wsChar c = true) ∧
      k t₂ = some r := by
  induction t with
  | nil => simp [wsPlusThen] at h
  | cons c cs ih =>
    by_cases hc : wsChar c
    · rw [wsPlusThen, if_pos (by simp [hc])] at h
      rcases ho : wsPlusThen k cs with _ | v
      · rw [ho] at h
        refine ⟨[c], cs, rfl, by simp, ?_, h⟩
        intro x hx
        rcases List.mem_cons.1 hx with hx | hx
        · rw [hx]; exact hc
        · simp at hx
      · rw [ho] at h
        have hv : v = r := Option.some.inj h
        subst hv
        obtain ⟨w, t₂, h1, h2, h3, h4⟩ := ih ho
        refine ⟨c :: w, t₂, by simp [h1], by simp, ?_, h4⟩
        intro x hx
        rcases List.mem_cons.1 hx with hx | hx
        · rw [hx]; exact hc
        · exact h3 x hx
    · rw [wsPlusThen, if_neg (by simp [hc])] at h
      simp at h

/-- `wsStarThen` on text whose head is not whitespace just runs the
continuation. -/
theorem wsStarThen_no_ws {k : List Char → Option (List Char)} {c : Char}
    (hc : wsChar c = false) (cs : List Char) :
    wsStarThen k (c :: cs) = k (c :: cs) := by
  rw [wsStarThen, if_neg (by simp [hc])]

/-! ## Macro probe extraction (src/godbolt.py,
`_extract_macro_probe_value`) -/

/-- Hex digit class `[0-9a-fA-F]`. -/
def hexDigit (c : Char) : Bool :=
  c.isDigit || ('a' ≤ c && c ≤ 'f') || ('A' ≤ c && c ≤ 'F')

/-- First regex alternative `0x[0-9a-fA-F]+` (after an optional sign). -/
def grabHex (t : List Char) : Option (List Char × List Char) :=
  match t with
  | '0' :: 'x' :: rest =>
    let ds := rest.takeWhile hexDigit
    if ds = [] then none else some ('0' :: 'x' :: ds, rest.drop ds.length)
  | _ => none

/-- Second regex alternative `\d+` (after an optional sign). -/
def grabDec (t : List Char) : Option (List Char × List Char) :=
  let ds := t.takeWhile Char.isDigit
  if ds = [] then none else some (ds, t.drop ds.length)

/-- The captured literal `(-?0x[0-9a-fA-F]+|-?\d+)`. -/
def grabNum (t : List Char) : Option (List Char × List Char) :=
  match t with
  | '-' :: rest =>
    match grabHex rest with
    | some (l, r) => some ('-' :: l, r)
    | none =>
      match grabDec rest with
      | some (l, r) => some ('-' :: l, r)
      | none => none
  | _ => (grabHex t).orElse (fun _ => grabDec t)

/-- Capture the numeric literal (the trailing `\s*\)?` of the pattern
never fails, so nothing after the literal is constrained). -/
def numCap (t : List Char) : Option (List Char) :=
  (grabNum t).map (fun pr => pr.1)

/-- `\(?\s*(num)` : optional opening parenthesis, preferred when
present. -/
def parenNum (t : List Char) : Option (List Char) :=
  match t with
  | '(' :: rest =>
    (wsStarThen numCap rest).orElse (fun _ => wsStarThen numCap t)
  | _ => wsStarThen numCap t

/-- `\([^)]*\)\s*` then `parenNum` : the optional cast group. -/
def castNum (t : List Char) : Option (List Char) :=
  match t with
  | '(' :: rest =>
    let body := rest.takeWhile (fun c => c ≠ ')')
    match rest.drop body.length with
    | ')' :: r2 => wsStarThen parenNum r2
    | _ => none
  | _ => none

/-- `(?:\([^)]*\)\s*)?(?:\(?\s*(num)\s*\)?)` : cast preferred, with
backtracking to the cast-free reading. -/
def afterEq (t : List Char) : Option (List Char) :=
  (castNum t).orElse (fun _ => parenNum t)

/-- The full pattern anchored at one position of the text. -/
def probeValAt (name t : List Char) : Option (List Char) :=
  (eatLit (macroMarker name) t).bind (fun r1 =>
    wsStarThen (fun r2 =>
      (eatLit ['='] r2).bind (fun r3 => wsStarThen afterEq r3)) r1)

/-- `re.search`: leftmost position where the pattern matches. -/
def searchProbe (name : List Char) : List Char → Option (List Char)
  | [] => none
  | c :: cs => (probeValAt name (c :: cs)).orElse (fun _ => searchProbe name cs)

/-- Value of one hex digit. -/
def hexVal (c : Char) : Nat :=
  if c.isDigit then c.toNat - 48
  else if 'a' ≤ c && c ≤ 'f' then c.toNat - 87
  else c.toNat - 55

/-- Python `int(s, 0)` on an unsigned literal as captured by the regex. -/
def pyNatBase0 (l : List Char) : Option Nat :=
  match l with
  | '0' :: 'x' :: ds =>
    if ds ≠ [] ∧ ds.all hexDigit
    then some (ds.foldl (fun acc c => acc * 16 + hexVal c) 0) else none
  | '0' :: 'X' :: ds =>
    if ds ≠ [] ∧ ds.all hexDigit
    then some (ds.foldl (fun acc c => acc * 16 + hexVal c) 0) else none
  | _ =>
    if l ≠ [] ∧ l.all Char.isDigit then
      if l.head? = some '0' ∧ l.any (fun c => c ≠ '0') then none
      else some (l.foldl (fun acc c => acc * 10 + (c.toNat - 48)) 0)
    else none

/-- Python `int(s, 0)` with an optional sign. -/
def pyIntBase0 (l : List Char) : Option Int :=
  match l with
  | '-' :: r => (pyNatBase0 r).map (fun n => -(n : Int))
  | _ => (pyNatBase0 l).map (fun n => (n : Int))

/-- Model of `GodboltProject._extract_macro_probe_value`. -/
def extractMacroProbeValue (t name : List Char) : Option Int :=
  (searchProbe name t).bind pyIntBase0

theorem probeValAt_none_of_not_swL {name t : List Char}
    (h : swL (macroMarker name) t = false) : probeValAt name t = none := by
  rcases he : eatLit (macroMarker name) t with _ | r
  · simp [probeValAt, he]
  · exact absurd (eatLit_swL he) (by simp [h])

/-- C5: macro extraction returns the correct integer for signed decimal
and 0x-prefixed hexadecimal literals at the first matching position, and
returns no value when the probe marker is absent from the text or the
matched literal is malformed (here: a decimal with a leading zero, which
Python `int(s, 0)` rejects). -/
theorem c5_macro_extraction :
    extractMacroProbeValue
      "int __GODBOLT_MACRO_PROBE_FOO__ = (int)(42);".data "FOO".data =
      some 42 ∧
    extractMacroProbeValue
      "int __GODBOLT_MACRO_PROBE_FOO__ = (int)(0x2A);".data "FOO".data =
      some 42 ∧
    extractMacroProbeValue
      "int __GODBOLT_MACRO_PROBE_FOO__ = (int)(-1);".data "FOO".data =
      some (-1) ∧
    extractMacroProbeValue
      "int __GODBOLT_MACRO_PROBE_FOO__ = 42;".data "FOO".data = some 42 ∧
    (∀ t name : List Char, hasSub (macroMarker name) t = false →
      extractMacroProbeValue t name = none) ∧
    extractMacroProbeValue
      "int __GODBOLT_MACRO_PROBE_FOO__ = (int)(012);".data "FOO".data =
      none := by
  refine ⟨by decide, by decide, by decide, by decide, ?_, by decide⟩
  intro t name h
  suffices hs : searchProbe name t = none by
    simp [extractMacroProbeValue, hs]
  induction t with
  | nil => rfl
  | cons c cs ih =>
    rw [hasSub] at h
    have h1 : swL (macroMarker name) (c :: cs) = false := by
      cases hsw : swL (macroMarker name) (c :: cs) <;> simp [hsw] at h ⊢
    have h2 : hasSub (macroMarker name) cs = false := by
      cases hh : hasSub (macroMarker name) cs <;> simp [hh] at h ⊢
    rw [searchProbe, probeValAt_none_of_not_swL h1]
    simpa using ih h2

/-- Witness for C5: the absence clause at a concrete text. -/
theorem c5_macro_extraction_witness :
    extractMacroProbeValue "int x = 42;".data "FOO".data = none :=
  c5_macro_extraction.2.2.2.2.1 "int x = 42;".data "FOO".data (by decide)

/-! ## Diagnostics classifier (src/godbolt.py, `has_warnings`)

`has_warnings` joins the compiler stderr/stdout line lists and searches
the result with the regex `\bwarning\b` (IGNORECASE).  Diagnostic lines
are dicts with an optional "text" key, modelled as `Option (List Char)`.
Python's `\w` and the case folding of IGNORECASE are modelled on the
ASCII range. -/

/-- Python `\w` on the ASCII range. -/
def wordChar (c : Char) : Bool := c.isAlphanum || c = '_'

/-- Boundary test against the character before the match. -/
def prevOk : Option Char → Bool
  | none => true
  | some c => !wordChar c

/-- Boundary test against the character after the match. -/
def headOk : List Char → Bool
  | [] => true
  | c :: _ => !wordChar c

/-- Case-insensitive literal comparison with the start of the text. -/
def swLower : List Char → List Char → Bool
  | [], _ => true
  | _ :: _, [] => false
  | p :: ps, c :: cs => p = c.toLower && swLower ps cs

/-- `\bwarning\b` anchored at one position (with the previous character
supplied). -/
def warningAt (prev : Option Char) (t : List Char) : Bool :=
  prevOk prev && swLower "warning".data t && headOk (t.drop 7)

/-- `re.search(r'\bwarning\b', ..., re.IGNORECASE)` as a scan. -/
def findWord : Option Char → List Char → Bool
  | _, [] => false
  | prev, c :: cs => warningAt prev (c :: cs) || findWord (some c) cs

/-- `"\n".join(line.get("text", "") for line in lines if "text" in line)`. -/
def textOfLines (lines : List (Option (List Char))) : List Char :=
  joinNl (lines.filterMap id)

/-- The `text_chunks` list built by `has_warnings`. -/
def chunksOf (se so : List (Option (List Char))) : List (List Char) :=
  (if se.isEmpty then [] else [textOfLines se]) ++
  (if so.isEmpty then [] else [textOfLines so])

/-- Model of `GodboltProject.has_warnings` given the selected compiler
diagnostic streams. -/
def hasWarningsM (se so : List (Option (List Char))) : Bool :=
  if (chunksOf se so).isEmpty then false
  else findWord none (joinNl (chunksOf se so))

/-- The previous character seen after consuming `u`, starting from
`prev`. -/
def lastOr (u : List Char) (prev : Option Char) : Option Char :=
  match u.getLast? with
  | some a => some a
  | none => prev

theorem lastOr_cons (c : Char) (u : List Char) (prev : Option Char) :
    lastOr (c :: u) prev = lastOr u (some c) := by
  cases hu : u with
  | nil => simp [lastOr]
  | cons d ds =>
    rw [lastOr, lastOr, List.getLast?_cons_cons]
    cases h : (d :: ds).getLast? with
    | none => exact absurd h (by simp)
    | some a => rfl

theorem swLower_take {pat t : List Char} (h : swLower pat t = true) :
    (t.take pat.length).map Char.toLower = pat := by
  induction pat generalizing t with
  | nil => simp
  | cons p ps ih =>
    cases t with
    | nil => simp [swLower] at h
    | cons c cs =>
      simp only [swLower, Bool.and_eq_true, decide_eq_true_eq] at h
      simp [List.take_succ_cons, h.1.symm, ih h.2]

theorem swLower_of_decomp {w v pat : List Char}
    (h : w.map Char.toLower = pat) : swLower pat (w ++ v) = true := by
  induction w generalizing pat with
  | nil => simp at h; simp [h, swLower]
  | cons c cs ih =>
    cases pat with
    | nil => simp at h
    | cons p ps =>
      simp only [List.map_cons, List.cons.injEq] at h
      simp [swLower, h.1, ih h.2]

theorem findWord_iff (t : List Char) : ∀ prev,
    findWord prev t = true ↔
      ∃ u w v, t = u ++ w ++ v ∧ w.map Char.toLower = "warning".data ∧
        prevOk (lastOr u prev) = true ∧ headOk v = true := by
  induction t with
  | nil =>
    intro prev
    simp only [findWord]
    constructor
    · intro h
      exact absurd h (by simp)
    · rintro ⟨u, w, v, h1, h2, -, -⟩
      exfalso
      have hlen : w.length = 7 := by
        simpa using congrArg List.length h2
      have hz : u.length + (w.length + v.length) = 0 := by
        simpa using (congrArg List.length h1).symm
      omega
  | cons c cs ih =>
    intro prev
    rw [findWord, Bool.or_eq_true]
    constructor
    · rintro (hat | hrec)
      · simp only [warningAt, Bool.and_eq_true] at hat
        obtain ⟨⟨hprev, hsw⟩, hhead⟩ := hat
        have hw := swLower_take hsw
        have hlen : ("warning".data).length = 7 := by decide
        refine ⟨[], (c :: cs).take 7, (c :: cs).drop 7, ?_, ?_, ?_, ?_⟩
        · simp
        · simpa [hlen] using hw
        · simpa [lastOr] using hprev
        · exact hhead
      · obtain ⟨u, w, v, h1, h2, h3, h4⟩ := (ih (some c)).1 hrec
        exact ⟨c :: u, w, v, by simp [h1], h2, by rwa [lastOr_cons], h4⟩
    · rintro ⟨u, w, v, h1, h2, h3, h4⟩
      cases u with
      | nil =>
        left
        simp only [List.nil_append] at h1
        have hlen : w.length = 7 := by
          have := congrArg List.length h2
          simpa using this
        have hsw : swLower "warning".data (c :: cs) = true := by
          rw [h1]; exact swLower_of_decomp h2
        have hdrop : (c :: cs).drop 7 = v := by
          rw [h1, ← hlen, List.drop_left]
        simp only [warningAt, Bool.and_eq_true]
        refine ⟨⟨?_, hsw⟩, by rwa [hdrop]⟩
        simpa [lastOr] using h3
      | cons c' u' =>
        right
        have hc : c' = c := by
          have := congrArg (fun l => l.head?) h1
          simpa using this.symm
        have hcs : cs = u' ++ w ++ v := by
          have := congrArg List.tail h1
          simpa using this
        refine (ih (some c)).2 ⟨u', w, v, hcs, h2, ?_, h4⟩
        rw [← hc]
        rwa [lastOr_cons] at h3

/-- C4 counterexample: the claim's bare case-insensitive substring test
disagrees with the code.  The stream text "warnings found" contains the
substring "warning", yet `has_warnings` is false, because the code
searches for the regex `\bwarning\b` (word-bounded), not a substring. -/
theorem c4_has_warnings_cex :
    hasWarningsM [some "warnings found".data] [] = false ∧
    hasSub "warning".data
      (List.map Char.toLower "warnings found".data) = true := by
  constructor <;> decide

/-- C4 (amended): `has_warnings` is true iff the token "warning" occurs
case-insensitively in the joined diagnostic text delimited by word
boundaries: not immediately preceded or followed by a word character
(letter, digit or underscore); when both diagnostic line lists are
empty it is false. -/
theorem c4_has_warnings_word_boundary
    (se so : List (Option (List Char))) :
    hasWarningsM se so = true ↔
      chunksOf se so ≠ [] ∧
      ∃ u w v, joinNl (chunksOf se so) = u ++ w ++ v ∧
        w.map Char.toLower = "warning".data ∧
        (∀ a, u.getLast? = some a → wordChar a = false) ∧
        (∀ a, v.head? = some a → wordChar a = false) := by
  rw [hasWarningsM]
  by_cases hch : (chunksOf se so).isEmpty
  · rw [if_pos hch]
    constructor
    · intro h
      exact absurd h (by simp)
    · rintro ⟨hne, -⟩
      exact absurd (List.isEmpty_iff.1 hch) hne
  · rw [if_neg hch]
    rw [findWord_iff]
    constructor
    · rintro ⟨u, w, v, h1, h2, h3, h4⟩
      refine ⟨fun he => hch (by simp [he]), u, w, v, h1, h2, ?_, ?_⟩
      · intro a ha
        have : prevOk (some a) = true := by
          rwa [show lastOr u none = some a by simp [lastOr, ha]] at h3
        simpa [prevOk] using this
      · intro a ha
        cases v with
        | nil => simp at ha
        | cons x xs =>
          have : x = a := by simpa using ha
          subst this
          simpa [headOk] using h4
    · rintro ⟨-, u, w, v, h1, h2, h3, h4⟩
      refine ⟨u, w, v, h1, h2, ?_, ?_⟩
      · rcases hu : u.getLast? with _ | a
        · simp [lastOr, hu, prevOk]
        · simp [lastOr, hu, prevOk, h3 a hu]
      · cases v with
        | nil => simp [headOk]
        | cons x xs => simp [headOk, h4 x rfl]

/-! ## Test matrix orchestrator (src/runner.py, `main` loop)

The loop iterates (test, compiler) pairs test-major, compiler-minor.
Before executing a pair it consults the auto-result cache
`auto_results : (compiler_display, group) -> {impl_value: TestResult}`;
on a hit for a non-auto variant with a declared expected value it
records a structural copy instead of issuing a job.  Job execution
(`run_test` / `run_preprocess_only`) is abstracted as an oracle
returning the outcome fields; `_make_result` fills in the identity
fields from the test and the compiler. -/

/-- Model of `runner.CompilerConfig`. -/
structure CompilerC where
  api_name : String
  display_name : String
  nickname : Option String
  extra_flags : List String
  local_asm : Bool
  assembler : String
  assembler_args : List String
  linker : String
  local_linker_args : List String
  local_compile : Bool
  local_compiler : String
  local_compiler_args : List String
deriving Repr, DecidableEq

/-- The outcome fields of one executed job (everything `_make_result`
takes besides the test and compiler identities). -/
structure RunOutcome where
  stage : String
  passed : Bool
  has_warnings : Bool
  has_errors : Bool
  api_error : Bool
  impl_value : Option Int
  files : List (String × String)
  stderrLog : List (String × String)
deriving Repr, DecidableEq

/-- Model of `runner._make_result`. -/
def mkResult (test : TestVariant) (comp : CompilerC) (o : RunOutcome) :
    TestResultR :=
  TestResultR.mk test.test_name test.group test.variant test.display_name
    test.is_auto test.detect_value comp.nickname comp.display_name
    comp.api_name o.stage o.passed o.has_warnings o.has_errors o.api_error
    o.impl_value o.files o.stderrLog

/-- `auto_results` as a nested association list. -/
abbrev AutoCache : Type :=
  List ((String × String) × List (Int × TestResultR))

def lookupInner (m : List (Int × TestResultR)) (k : Int) :
    Option TestResultR :=
  match m with
  | [] => none
  | (k', r) :: rest => if k' = k then some r else lookupInner rest k

def cacheLookup (cache : AutoCache) (key : String × String) (k : Int) :
    Option TestResultR :=
  match cache with
  | [] => none
  | (key', m) :: rest =>
    if key' = key then lookupInner m k else cacheLookup rest key k

def innerInsert (m : List (Int × TestResultR)) (k : Int) (r : TestResultR) :
    List (Int × TestResultR) :=
  match m with
  | [] => [(k, r)]
  | (k', r') :: rest =>
    if k' = k then (k, r) :: rest else (k', r') :: innerInsert rest k r

def cacheInsert (cache : AutoCache) (key : String × String) (k : Int)
    (r : TestResultR) : AutoCache :=
  match cache with
  | [] => [(key, [(k, r)])]
  | (key', m) :: rest =>
    if key' = key then (key, innerInsert m k r) :: rest
    else (key', m) :: cacheInsert rest key k r

/-- `dataclasses.replace(auto_result, test_name=..., variant=...,
variant_display=..., is_auto=False, detect_value=...)`. -/
def copyIdent (r : TestResultR) (test : TestVariant) : TestResultR :=
  TestResultR.mk test.test_name r.group test.variant test.display_name
    false test.detect_value r.compiler_nickname r.compiler_display
    r.compiler_api r.stage r.passed r.has_warnings r.has_errors
    r.api_error r.impl_value r.files r.stderrLog

/-- The orchestrator's mutable loop state. -/
structure OrchState where
  results : List TestResultR
  cache : AutoCache
  passedCount : Nat
deriving DecidableEq

/-- `if test.is_auto and result.impl_value is not None:` — seed the
auto-result cache. -/
def seedCache (cache : AutoCache) (key : String × String) (isAuto : Bool)
    (impl : Option Int) (r : TestResultR) : AutoCache :=
  if isAuto then
    match impl with
    | some v => cacheInsert cache key v r
    | none => cache
  else cache

theorem seedCache_not_auto (cache : AutoCache) (key : String × String)
    (impl : Option Int) (r : TestResultR) :
    seedCache cache key false impl r = cache := rfl

theorem seedCache_none (cache : AutoCache) (key : String × String)
    (isAuto : Bool) (r : TestResultR) :
    seedCache cache key isAuto none r = cache := by
  cases isAuto <;> rfl

theorem seedCache_auto_some (cache : AutoCache) (key : String × String)
    (v : Int) (r : TestResultR) :
    seedCache cache key true (some v) r = cacheInsert cache key v r := rfl

/-- Execute the pair (no cache hit): run the job, append the result,
seed the cache when the test is auto and a probe value was extracted,
and update the pass counter per the `run_all` accounting. -/
def execPair (runJob : TestVariant → CompilerC → RunOutcome)
    (runAll hasNonAuto : Bool) (st : OrchState) (test : TestVariant)
    (comp : CompilerC) : Bool × OrchState :=
  let result := mkResult test comp (runJob test comp)
  let cache' := seedCache st.cache (comp.display_name, test.group)
    test.is_auto result.impl_value result
  let passed' :=
    if runAll && hasNonAuto && test.is_auto then st.passedCount
    else if result.passed then st.passedCount + 1 else st.passedCount
  (true, OrchState.mk (st.results ++ [result]) cache' passed')

/-- One iteration of the orchestrator loop for a (test, compiler) pair.
The returned Bool tells whether a job was issued. -/
def stepPair (runJob : TestVariant → CompilerC → RunOutcome)
    (runAll hasNonAuto : Bool) (st : OrchState) (test : TestVariant)
    (comp : CompilerC) : Bool × OrchState :=
  match test.is_auto, test.detect_value with
  | false, some k =>
    match cacheLookup st.cache (comp.display_name, test.group) k with
    | some r =>
      (false, OrchState.mk (st.results ++ [copyIdent r test]) st.cache
        (st.passedCount + if (copyIdent r test).passed then 1 else 0))
    | none => execPair runJob runAll hasNonAuto st test comp
  | _, _ => execPair runJob runAll hasNonAuto st test comp

def runPairs (runJob : TestVariant → CompilerC → RunOutcome)
    (runAll hasNonAuto : Bool) (st : OrchState) :
    List (TestVariant × CompilerC) → OrchState
  | [] => st
  | (t, c) :: rest =>
    runPairs runJob runAll hasNonAuto
      (stepPair runJob runAll hasNonAuto st t c).2 rest

/-- Test-major, compiler-minor iteration order of the main loop. -/
def allPairs (tests : List TestVariant) (comps : List CompilerC) :
    List (TestVariant × CompilerC) :=
  tests.flatMap (fun t => comps.map (fun c => (t, c)))

/-- A full run of the test matrix from the empty initial state. -/
def runMatrix (runJob : TestVariant → CompilerC → RunOutcome)
    (runAll hasNonAuto : Bool) (tests : List TestVariant)
    (comps : List CompilerC) : OrchState :=
  runPairs runJob runAll hasNonAuto (OrchState.mk [] [] 0)
    (allPairs tests comps)

/-- Every cache entry stores an auto-variant result under its own
extracted probe value. -/
abbrev CacheOK (cache : AutoCache) : Prop :=
  ∀ e ∈ cache, ∀ q ∈ e.2, q.2.is_auto = true ∧ q.2.impl_value = some q.1

theorem innerInsert_ok {m : List (Int × TestResultR)} {k : Int}
    {r : TestResultR}
    (hm : ∀ q ∈ m, q.2.is_auto = true ∧ q.2.impl_value = some q.1)
    (h1 : r.is_auto = true) (h2 : r.impl_value = some k) :
    ∀ q ∈ innerInsert m k r,
      q.2.is_auto = true ∧ q.2.impl_value = some q.1 := by
  induction m with
  | nil =>
    intro q hq
    simp only [innerInsert, List.mem_singleton] at hq
    simp [hq, h1, h2]
  | cons p rest ih =>
    intro q hq
    rw [innerInsert] at hq
    by_cases hk : p.1 = k
    · rw [if_pos hk] at hq
      rcases List.mem_cons.1 hq with h | h
      · simp [h, h1, h2]
      · exact hm q (List.mem_cons_of_mem p h)
    · rw [if_neg hk] at hq
      rcases List.mem_cons.1 hq with h | h
      · exact h ▸ hm p (List.mem_cons_self p rest)
      · exact ih (fun q hq => hm q (List.mem_cons_of_mem p hq)) q h

theorem cacheInsert_ok {cache : AutoCache} {key : String × String} {k : Int}
    {r : TestResultR} (hc : CacheOK cache) (h1 : r.is_auto = true)
    (h2 : r.impl_value = some k) : CacheOK (cacheInsert cache key k r) := by
  induction cache with
  | nil =>
    intro e he
    simp only [cacheInsert, List.mem_singleton] at he
    intro q hq
    rw [he] at hq
    simp only [List.mem_singleton] at hq
    simp [hq, h1, h2]
  | cons p rest ih =>
    intro e he
    rw [cacheInsert] at he
    by_cases hk : p.1 = key
    · rw [if_pos hk] at he
      rcases List.mem_cons.1 he with h | h
      · rw [h]
        exact innerInsert_ok (hc p (List.mem_cons_self p rest)) h1 h2
      · exact hc e (List.mem_cons_of_mem p h)
    · rw [if_neg hk] at he
      rcases List.mem_cons.1 he with h | h
      · exact h ▸ hc p (List.mem_cons_self p rest)
      · exact ih (fun e he => hc e (List.mem_cons_of_mem p he)) e h

theorem execPair_cache_ok (runJob : TestVariant → CompilerC → RunOutcome)
    (runAll hasNonAuto : Bool) (st : OrchState) (test : TestVariant)
    (comp : CompilerC) (hc : CacheOK st.cache) :
    CacheOK ((execPair runJob runAll hasNonAuto st test comp).2).cache := by
  have hcache : ((execPair runJob runAll hasNonAuto st test comp).2).cache =
      seedCache st.cache (comp.display_name, test.group) test.is_auto
        (mkResult test comp (runJob test comp)).impl_value
        (mkResult test comp (runJob test comp)) := rfl
  rw [hcache]
  rcases hauto : test.is_auto with _ | _
  · rw [seedCache_not_auto]; exact hc
  · rcases hv : (mkResult test comp (runJob test comp)).impl_value with _ | v
    · rw [seedCache_none]; exact hc
    · rw [seedCache_auto_some]
      have him : (mkResult test comp (runJob test comp)).is_auto =
          test.is_auto := rfl
      exact cacheInsert_ok hc (him.trans hauto) hv

theorem stepPair_cache_ok (runJob : TestVariant → CompilerC → RunOutcome)
    (runAll hasNonAuto : Bool) (st : OrchState) (test : TestVariant)
    (comp : CompilerC) (hc : CacheOK st.cache) :
    CacheOK ((stepPair runJob runAll hasNonAuto st test comp).2).cache := by
  rcases hauto : test.is_auto with _ | _ <;>
    rcases hdet : test.detect_value with _ | k <;>
      simp only [stepPair, hauto, hdet]
  case false.some =>
    rcases hl : cacheLookup st.cache (comp.display_name, test.group) k with
      _ | r <;> simp only [hl]
    · exact execPair_cache_ok runJob runAll hasNonAuto st test comp hc
    · exact hc
  all_goals exact execPair_cache_ok runJob runAll hasNonAuto st test comp hc

theorem runPairs_cache_ok (runJob : TestVariant → CompilerC → RunOutcome)
    (runAll hasNonAuto : Bool) :
    ∀ (pairs : List (TestVariant × CompilerC)) (st : OrchState),
      CacheOK st.cache →
      CacheOK (runPairs runJob runAll hasNonAuto st pairs).cache := by
  intro pairs
  induction pairs with
  | nil => intro st h; exact h
  | cons p rest ih =>
    intro st h
    exact ih _ (stepPair_cache_ok runJob runAll hasNonAuto st p.1 p.2 h)

/-- C1: (a) on a cache hit — a non-auto variant declaring expected value
`k` while an earlier auto variant of the same group and compiler is
cached under extracted value `k` — the orchestrator issues no job and
records exactly the cached result with only the identity fields (test
name, variant, display name, auto flag, expected value) substituted;
(b) a pair whose test is not auto, or whose executed outcome has no
extracted value, never seeds the cache; (c) over any full run of the
matrix, every cache entry is the result of an auto variant stored under
its own extracted probe value. -/
theorem c1_auto_reuse :
    (∀ (runJob : TestVariant → CompilerC → RunOutcome)
       (runAll hasNonAuto : Bool) (st : OrchState) (test : TestVariant)
       (comp : CompilerC) (k : Int) (r : TestResultR),
      test.is_auto = false → test.detect_value = some k →
      cacheLookup st.cache (comp.display_name, test.group) k = some r →
      stepPair runJob runAll hasNonAuto st test comp =
        (false, OrchState.mk (st.results ++ [copyIdent r test]) st.cache
          (st.passedCount + if r.passed then 1 else 0))) ∧
    (∀ (runJob : TestVariant → CompilerC → RunOutcome)
       (runAll hasNonAuto : Bool) (st : OrchState) (test : TestVariant)
       (comp : CompilerC),
      test.is_auto = false ∨ (runJob test comp).impl_value = none →
      ((stepPair runJob runAll hasNonAuto st test comp).2).cache =
        st.cache) ∧
    (∀ (runJob : TestVariant → CompilerC → RunOutcome)
       (runAll hasNonAuto : Bool) (tests : List TestVariant)
       (comps : List CompilerC),
      CacheOK (runMatrix runJob runAll hasNonAuto tests comps).cache) := by
  refine ⟨?_, ?_, ?_⟩
  · intro runJob runAll hasNonAuto st test comp k r h1 h2 h3
    rw [stepPair]
    have hp : (copyIdent r test).passed = r.passed := rfl
    simp only [h1, h2, h3, hp]
  · intro runJob runAll hasNonAuto st test comp h
    have hexec : test.is_auto = false ∨
        (runJob test comp).impl_value = none →
        ((execPair runJob runAll hasNonAuto st test comp).2).cache =
          st.cache := by
      intro h
      have hcache :
          ((execPair runJob runAll hasNonAuto st test comp).2).cache =
          seedCache st.cache (comp.display_name, test.group) test.is_auto
            (mkResult test comp (runJob test comp)).impl_value
            (mkResult test comp (runJob test comp)) := rfl
      rw [hcache]
      rcases h with h | h
      · rw [h, seedCache_not_auto]
      · have himp : (mkResult test comp (runJob test comp)).impl_value =
            (runJob test comp).impl_value := rfl
        rw [himp, h, seedCache_none]
    rcases hauto : test.is_auto with _ | _ <;>
      rcases hdet : test.detect_value with _ | k <;>
        simp only [stepPair, hauto, hdet]
    case false.some =>
      rcases hl : cacheLookup st.cache (comp.display_name, test.group) k with
        _ | r <;> simp only [hl]
      all_goals exact hexec h
    all_goals exact hexec h
  · intro runJob runAll hasNonAuto tests comps
    exact runPairs_cache_ok runJob runAll hasNonAuto _ _ (by intro e he; simp at he)

/-- Witness for C1: a concrete cache hit reusing an auto result. -/
theorem c1_auto_reuse_witness :
    stepPair (fun _ _ => RunOutcome.mk "success" true false false false
        none [] [])
      true true
      (OrchState.mk []
        [(("GCC", "g"),
          [((7 : Int), TestResultR.mk "g_auto" "g" "auto" "auto" true none
            none "GCC" "gcc" "success" true false false false (some 7)
            [] [])])] 0)
      (TestVariant.mk "g_v" "v" "g" "f.c" "V" [] (some "M") (some 7) false
        true [] [])
      (CompilerC.mk "gcc" "GCC" none [] false "as" [] "gcc" [] false
        "gcc" []) =
    (false, OrchState.mk
      ([] ++ [copyIdent
        (TestResultR.mk "g_auto" "g" "auto" "auto" true none none "GCC"
          "gcc" "success" true false false false (some 7) [] [])
        (TestVariant.mk "g_v" "v" "g" "f.c" "V" [] (some "M") (some 7)
          false true [] [])])
      [(("GCC", "g"),
        [((7 : Int), TestResultR.mk "g_auto" "g" "auto" "auto" true none
          none "GCC" "gcc" "success" true false false false (some 7)
          [] [])])]
      (0 + if (TestResultR.mk "g_auto" "g" "auto" "auto" true none none
        "GCC" "gcc" "success" true false false false (some 7) [] []).passed
        then 1 else 0)) :=
  c1_auto_reuse.1 _ true true _ _ _ 7 _ rfl rfl (by decide)

/-! ## Occurrence lemmas used by include restoration -/

theorem occursAt_countOcc_pos {m t : List Char} {q : Nat}
    (hm : m ≠ []) (h : occursAt m t q) : 1 ≤ countOcc m t := by
  induction t generalizing q with
  | nil =>
    rw [occursAt, List.drop_nil] at h
    cases m with
    | nil => simp at hm
    | cons c cs => simp [swL] at h
  | cons c cs ih =>
    cases q with
    | zero =>
      rw [occursAt, List.drop_zero] at h
      rw [countOcc_cons, if_pos h]
      omega
    | succ n =>
      rw [occursAt, List.drop_succ_cons] at h
      have := ih h
      rw [countOcc_cons]
      omega

theorem occursAt_two_count {m t : List Char} {q q' : Nat} (hm : m ≠ [])
    (hlt : q < q') (h1 : occursAt m t q) (h2 : occursAt m t q') :
    2 ≤ countOcc m t := by
  induction t generalizing q q' with
  | nil =>
    rw [occursAt, List.drop_nil] at h1
    cases m with
    | nil => simp at hm
    | cons c cs => simp [swL] at h1
  | cons c cs ih =>
    cases q with
    | zero =>
      rw [occursAt, List.drop_zero] at h1
      cases q' with
      | zero => omega
      | succ n =>
        rw [occursAt, List.drop_succ_cons] at h2
        have := occursAt_countOcc_pos hm h2
        rw [countOcc_cons, if_pos h1]
        omega
    | succ n =>
      cases q' with
      | zero => omega
      | succ n' =>
        rw [occursAt, List.drop_succ_cons] at h1 h2
        have := ih (by omega : n < n') h1 h2
        rw [countOcc_cons]
        omega

theorem count_one_unique {m t : List Char} {q q' : Nat} (hm : m ≠ [])
    (hc : countOcc m t = 1) (h1 : occursAt m t q) (h2 : occursAt m t q') :
    q = q' := by
  rcases Nat.lt_trichotomy q q' with h | h | h
  · have := occursAt_two_count hm h h1 h2
    omega
  · exact h
  · have := occursAt_two_count hm h h2 h1
    omega

theorem hasSub_of_occursAt {m t : List Char} {q : Nat}
    (h : occursAt m t q) : hasSub m t = true := by
  induction t generalizing q with
  | nil =>
    rw [occursAt, List.drop_nil] at h
    rw [hasSub]
    exact h
  | cons c cs ih =>
    cases q with
    | zero =>
      rw [occursAt, List.drop_zero] at h
      rw [hasSub, h, Bool.true_or]
    | succ n =>
      rw [occursAt, List.drop_succ_cons] at h
      rw [hasSub, ih h, Bool.or_true]

theorem occursAt_shift {m a b : List Char} {q : Nat}
    (h : occursAt m b q) : occursAt m (a ++ b) (a.length + q) := by
  rw [occursAt, List.drop_append_eq_append_drop]
  have h1 : a.drop (a.length + q) = [] := by
    apply List.drop_eq_nil_of_le
    omega
  have h2 : a.length + q - a.length = q := by omega
  rw [h1, h2, List.nil_append]
  exact h

theorem occursAt_here (x m v : List Char) :
    occursAt m (x ++ (m ++ v)) x.length := by
  rw [occursAt]
  have : (x ++ (m ++ v)).drop x.length = m ++ v := by
    rw [List.drop_append_eq_append_drop]
    simp
  rw [this]
  exact swL_append_self m v

/-- `countOcc` of a newline-free pattern distributes over joined lines. -/
theorem countOcc_joinNl {m : List Char} (hm : m ≠ []) (hnl : '\n' ∉ m) :
    ∀ ls : List (List Char),
      countOcc m (joinNl ls) = (ls.map (countOcc m)).sum := by
  intro ls
  induction ls with
  | nil => simpa using countOcc_nil m hm
  | cons l ls ih =>
    cases ls with
    | nil => simp [joinNl]
    | cons y ys =>
      rw [joinNl_cons (by simp), countOcc_nl_split hm hnl, ih]
      simp

/-! ## The `re.sub` engine (fuelled, so kernel-evaluable)

A matcher takes the text at a position and returns the rest after the
match on success.  `subAllFuel` mirrors `re.sub`: scan left to right,
replace each non-overlapping match.  The fuel is an upper bound on the
number of steps; `subAll` supplies enough for any input. -/

def subAllFuel (m : List Char → Option (List Char)) (repl : List Char) :
    Nat → List Char → List Char
  | 0, t => t
  | _ + 1, [] =>
    match m [] with
    | some _ => repl
    | none => []
  | fuel + 1, c :: cs =>
    match m (c :: cs) with
    | some r =>
      if r.length < (c :: cs).length then repl ++ subAllFuel m repl fuel r
      else repl ++ c :: subAllFuel m repl fuel cs
    | none => c :: subAllFuel m repl fuel cs

def subAll (m : List Char → Option (List Char)) (repl t : List Char) :
    List Char :=
  subAllFuel m repl (t.length + 1) t

theorem subAllFuel_congr {m : List Char → Option (List Char)}
    {repl : List Char} :
    ∀ {f1 : Nat} {t : List Char} {g : Nat}, t.length < f1 → t.length < g →
      subAllFuel m repl f1 t = subAllFuel m repl g t := by
  intro f1
  induction f1 with
  | zero => intro t g h1; omega
  | succ f ih =>
    intro t g h1 h2
    cases g with
    | zero => omega
    | succ f' =>
      cases t with
      | nil => rfl
      | cons c cs =>
        rw [subAllFuel, subAllFuel]
        rcases hm : m (c :: cs) with _ | r
        · simp only
          have := ih (t := cs) (g := f') (by simpa using h1) (by simpa using h2)
          rw [this]
        · simp only
          by_cases hr : r.length < (c :: cs).length
          · have hr' : r.length < cs.length + 1 := by simpa using hr
            have h1' : cs.length + 1 < f + 1 := by simpa using h1
            have h2' : cs.length + 1 < f' + 1 := by simpa using h2
            rw [if_pos hr, if_pos hr,
              ih (t := r) (g := f') (by omega) (by omega)]
          · rw [if_neg hr, if_neg hr,
              ih (t := cs) (g := f') (by simpa using h1) (by simpa using h2)]

theorem subAllFuel_nomatch {m : List Char → Option (List Char)}
    {repl : List Char} :
    ∀ {fuel : Nat} {t : List Char}, t.length < fuel →
      (∀ i, m (t.drop i) = none) → subAllFuel m repl fuel t = t := by
  intro fuel
  induction fuel with
  | zero => intro t h1; omega
  | succ f ih =>
    intro t h1 h2
    cases t with
    | nil =>
      have := h2 0
      rw [List.drop_nil] at this
      rw [subAllFuel, this]
    | cons c cs =>
      have h0 := h2 0
      rw [List.drop_zero] at h0
      rw [subAllFuel, h0]
      have : subAllFuel m repl f cs = cs := by
        apply ih (by simpa using h1)
        intro i
        have := h2 (i + 1)
        rwa [List.drop_succ_cons] at this
      rw [this]

theorem subAll_nomatch {m : List Char → Option (List Char)}
    {repl t : List Char} (h : ∀ i, m (t.drop i) = none) :
    subAll m repl t = t :=
  subAllFuel_nomatch (by omega) h

theorem subAllFuel_skip {m : List Char → Option (List Char)}
    {repl : List Char} :
    ∀ (a : List Char) {b : List Char} {fuel : Nat},
      (a ++ b).length < fuel →
      (∀ i, i < a.length → m ((a ++ b).drop i) = none) →
      subAllFuel m repl fuel (a ++ b) =
        a ++ subAllFuel m repl (fuel - a.length) b := by
  intro a
  induction a with
  | nil =>
    intro b fuel h1 h2
    simp
  | cons c a' ih =>
    intro b fuel h1 h2
    cases fuel with
    | zero => simp at h1
    | succ f =>
      have h0 := h2 0 (by simp)
      rw [List.drop_zero] at h0
      rw [show (c :: a') ++ b = c :: (a' ++ b) from rfl] at h0 ⊢
      rw [subAllFuel, h0]
      have hrec : subAllFuel m repl f (a' ++ b) =
          a' ++ subAllFuel m repl (f - a'.length) b := by
        apply ih (by simp at h1 ⊢; omega)
        intro i hi
        have := h2 (i + 1) (by simpa using Nat.succ_lt_succ hi)
        rwa [show ((c :: a') ++ b).drop (i + 1) = (a' ++ b).drop i from rfl]
          at this
      rw [hrec]
      simp

theorem subAll_single {m : List Char → Option (List Char)}
    {repl : List Char} (a span b : List Char) (hspan : span ≠ [])
    (h1 : ∀ i, i < a.length → m ((a ++ (span ++ b)).drop i) = none)
    (h2 : m (span ++ b) = some b)
    (h3 : ∀ i, m (b.drop i) = none) :
    subAll m repl (a ++ (span ++ b)) = a ++ (repl ++ b) := by
  rcases span with _ | ⟨c, span'⟩
  · exact absurd rfl hspan
  · rw [subAll, subAllFuel_skip a (by omega) h1]
    congr 1
    have hlen : (a ++ ((c :: span') ++ b)).length + 1 - a.length =
        ((c :: span') ++ b).length + 1 := by
      simp only [List.length_append, List.length_cons]
      omega
    rw [hlen]
    rw [show (c :: span') ++ b = c :: (span' ++ b) from rfl, subAllFuel]
    rw [show c :: (span' ++ b) = (c :: span') ++ b from rfl, h2]
    simp only
    rw [if_pos (by simp only [List.length_append, List.length_cons]; omega)]
    congr 1
    have hnm : subAllFuel m repl (((c :: span') ++ b).length) b = b := by
      apply subAllFuel_nomatch ?_ h3
      simp only [List.length_cons, List.length_append]
      omega
    exact hnm

/-! ## The probe-declaration matchers (src/godbolt.py,
`_restore_includes_from_preprocessed`)

`pattern_both` is
`void\s+START\s*\(\s*(?:void\s*)?\)\s*;.*?void\s+END\s*\(\s*(?:void\s*)?\)\s*;`
with DOTALL; `pattern_start_only` is its first half.  `matchDecl m`
matches one marker declaration, `findEnd` implements the non-greedy
`.*?` scan, `matchBoth` the full two-marker pattern.  Matchers return
the rest of the text after the match. -/

def voidLit : List Char := ['v', 'o', 'i', 'd']

/-- `\s*;` after the closing parenthesis. -/
def afterParen (t : List Char) : Option (List Char) :=
  wsStarThen (fun r => eatLit [';'] r) t

/-- `(?:void\s*)?\)\s*;` with the void-present reading preferred. -/
def voidInner (t : List Char) : Option (List Char) :=
  ((eatLit voidLit t).bind (wsStarThen (fun r =>
      (eatLit [')'] r).bind afterParen))).orElse
    (fun _ => (eatLit [')'] t).bind afterParen)

/-- `void\s+MARKER\s*\(\s*(?:void\s*)?\)\s*;`. -/
def matchDecl (marker t : List Char) : Option (List Char) :=
  (eatLit voidLit t).bind
    (wsPlusThen (fun r1 =>
      (eatLit marker r1).bind
        (wsStarThen (fun r2 =>
          (eatLit ['('] r2).bind (wsStarThen voidInner)))))

/-- The non-greedy `.*?` (DOTALL) up to the first end-marker
declaration. -/
def findEnd (marker : List Char) : List Char → Option (List Char)
  | [] => none
  | c :: cs =>
    match matchDecl marker (c :: cs) with
    | some r => some r
    | none => findEnd marker cs

/-- The full two-marker pattern. -/
def matchBoth (s e t : List Char) : Option (List Char) :=
  (matchDecl s t).bind (findEnd e)

/-- `void MARKER(void);` as inserted by `_insert_include_probes`. -/
def declOf (m : List Char) : List Char :=
  voidLit ++ ' ' :: (m ++ ['(', 'v', 'o', 'i', 'd', ')', ';'])

theorem matchDecl_nil (marker : List Char) : matchDecl marker [] = none := rfl

theorem none_orElse_eq {α : Type} (f : Unit → Option α) :
    Option.none.orElse f = f () := rfl

/-- `l.drop (n + m) = (l.drop n).drop m`. -/
theorem drop_add (n m : Nat) (l : List Char) :
    l.drop (n + m) = (l.drop n).drop m := by
  rw [List.drop_drop]

/-- The matcher accepts exactly an inserted declaration (the marker must
not start with whitespace, which holds for every generated marker). -/
theorem matchDecl_decl (hd : Char) (tl x : List Char)
    (hw : wsChar hd = false) :
    matchDecl (hd :: tl) (declOf (hd :: tl) ++ x) = some x := by
  have e1 : declOf (hd :: tl) ++ x =
      voidLit ++ (' ' :: (hd :: (tl ++
        ('(' :: 'v' :: 'o' :: 'i' :: 'd' :: ')' :: ';' :: x)))) := by
    simp [declOf, voidLit]
  rw [matchDecl, e1, eatLit_append, Option.some_bind]
  rw [wsPlusThen, if_pos (by decide)]
  rw [show wsPlusThen _ (hd :: (tl ++
      ('(' :: 'v' :: 'o' :: 'i' :: 'd' :: ')' :: ';' :: x))) =
      (none : Option (List Char)) from by
    rw [wsPlusThen, if_neg (by simp [hw])]]
  simp only [none_orElse_eq]
  rw [show hd :: (tl ++ ('(' :: 'v' :: 'o' :: 'i' :: 'd' :: ')' :: ';' :: x))
      = (hd :: tl) ++ ('(' :: 'v' :: 'o' :: 'i' :: 'd' :: ')' :: ';' :: x)
      from rfl]
  rw [eatLit_append, Option.some_bind]
  rw [wsStarThen_no_ws (by decide), eatLit, if_pos rfl, eatLit,
    Option.some_bind]
  rw [wsStarThen_no_ws (by decide)]
  rw [voidInner]
  rw [show 'v' :: 'o' :: 'i' :: 'd' :: ')' :: ';' :: x =
      voidLit ++ (')' :: ';' :: x) from rfl]
  rw [eatLit_append, Option.some_bind]
  rw [wsStarThen_no_ws (by decide), eatLit, if_pos rfl, eatLit,
    Option.some_bind]
  rw [afterParen, wsStarThen_no_ws (by decide), eatLit, if_pos rfl, eatLit]
  rfl

/-- A successful declaration match exhibits the marker after `void` and
at least one whitespace character. -/
theorem matchDecl_occurs {marker t r : List Char}
    (h : matchDecl marker t = some r) :
    ∃ w v, t = voidLit ++ (w ++ (marker ++ v)) ∧ w ≠ [] ∧
      ∀ c ∈ w, wsChar c = true := by
  rw [matchDecl] at h
  rcases he : eatLit voidLit t with _ | r1
  · rw [he] at h; simp at h
  · rw [he, Option.some_bind] at h
    obtain ⟨w, t2, hw1, hw2, hw3, hw4⟩ := wsPlusThen_eq h
    rcases he2 : eatLit marker t2 with _ | r2
    · rw [he2] at hw4; simp at hw4
    · refine ⟨w, r2, ?_, hw2, hw3⟩
      rw [eatLit_eq_append he, hw1, eatLit_eq_append he2]

/-- Position pinning: on a text of the shape
`A ++ voidLit ++ ' ' :: m ++ rest` in which `m` occurs only at position
`A.length + 5`, the declaration matcher can succeed only at the start of
the inserted declaration. -/
theorem matchDecl_pin {m A u : List Char}
    (huniq : ∀ q, occursAt m (A ++ (voidLit ++ (' ' :: (m ++ u)))) q →
      q = A.length + 5) :
    ∀ i r, matchDecl m
      ((A ++ (voidLit ++ (' ' :: (m ++ u)))).drop i) = some r →
      i = A.length := by
  intro i r h
  obtain ⟨w, v, hdec, hwne, hws⟩ := matchDecl_occurs h
  have hocc : occursAt m (A ++ (voidLit ++ (' ' :: (m ++ u))))
      (i + (4 + w.length)) := by
    rw [occursAt, drop_add, hdec]
    rw [show voidLit ++ (w ++ (m ++ v)) = (voidLit ++ w) ++ (m ++ v) by
      simp]
    rw [show 4 + w.length = (voidLit ++ w).length by
      simp only [List.length_append, voidLit, List.length_cons,
        List.length_nil]]
    rw [List.drop_left]
    exact swL_append_self m v
  have hq := huniq _ hocc
  by_cases hw1 : w.length = 1
  · omega
  · exfalso
    have hw2 : 2 ≤ w.length := by
      rcases w with _ | ⟨a, w'⟩
      · simp at hwne
      · simp only [List.length_cons] at hw1 ⊢
        omega
    have e1 : (A ++ (voidLit ++ (' ' :: (m ++ u)))).drop (A.length + 3)
        = 'd' :: ' ' :: (m ++ u) := by
      rw [List.drop_append_eq_append_drop,
        List.drop_eq_nil_of_le (by omega : A.length ≤ A.length + 3),
        List.nil_append, show A.length + 3 - A.length = 3 by omega]
      rfl
    have e2 : (A ++ (voidLit ++ (' ' :: (m ++ u)))).drop (A.length + 3)
        = (w.drop (w.length - 2)) ++ (m ++ v) := by
      have harith : A.length + 3 = i + (4 + (w.length - 2)) := by omega
      rw [harith, drop_add, hdec]
      rw [show voidLit ++ (w ++ (m ++ v)) = (voidLit ++ w) ++ (m ++ v) by
        simp]
      rw [List.drop_append_eq_append_drop]
      have h4 : (voidLit ++ w).drop (4 + (w.length - 2)) =
          w.drop (w.length - 2) := by
        rw [show voidLit ++ w = ('v':: 'o' :: 'i' :: 'd' :: w) from rfl]
        rw [drop_add]
        rfl
      have h5 : 4 + (w.length - 2) - (voidLit ++ w).length = 0 := by
        simp only [List.length_append]
        simp only [voidLit, List.length_cons, List.length_nil]
        omega
      rw [h4, h5, List.drop_zero]
    obtain ⟨x, y, hxy⟩ : ∃ x y, w.drop (w.length - 2) = [x, y] := by
      have hlen2 : (w.drop (w.length - 2)).length = 2 := by
        rw [List.length_drop]
        omega
      rcases hd : w.drop (w.length - 2) with _ | ⟨x, t1⟩
      · rw [hd] at hlen2; simp at hlen2
      · rcases t1 with _ | ⟨y, t2⟩
        · rw [hd] at hlen2; simp at hlen2
        · rcases t2 with _ | _
          · exact ⟨x, y, rfl⟩
          · rw [hd] at hlen2; simp at hlen2
    rw [hxy] at e2
    rw [e1] at e2
    have e3 : ('d' : Char) = x ∧ (' ' : Char) = y ∧ m ++ u = m ++ v := by
      simpa using e2
    have hxw : x ∈ w := by
      have hx2 : x ∈ w.drop (w.length - 2) := by
        rw [hxy]; simp
      exact List.mem_of_mem_drop hx2
    have := hws x hxw
    rw [← e3.1] at this
    exact absurd this (by decide)

/-- `findEnd` returns the first position at which the end declaration
matches. -/
theorem findEnd_of {e : List Char} :
    ∀ (n : Nat) (t r : List Char),
      (∀ i, i < n → matchDecl e (t.drop i) = none) →
      matchDecl e (t.drop n) = some r → findEnd e t = some r := by
  intro n
  induction n with
  | zero =>
    intro t r hfail hsucc
    rw [List.drop_zero] at hsucc
    cases t with
    | nil => rw [matchDecl_nil] at hsucc; exact absurd hsucc (by simp)
    | cons c cs => rw [findEnd, hsucc]
  | succ n ih =>
    intro t r hfail hsucc
    cases t with
    | nil =>
      rw [List.drop_nil, matchDecl_nil] at hsucc
      exact absurd hsucc (by simp)
    | cons c cs =>
      have h0 := hfail 0 (by omega)
      rw [List.drop_zero] at h0
      rw [findEnd, h0]
      apply ih cs r
      · intro i hi
        have := hfail (i + 1) (by omega)
        rwa [List.drop_succ_cons] at this
      · rwa [List.drop_succ_cons] at hsucc

/-- A successful `findEnd` contains a successful declaration match. -/
theorem findEnd_occurs {e : List Char} :
    ∀ {t r : List Char}, findEnd e t = some r →
      ∃ j r2, matchDecl e (t.drop j) = some r2 := by
  intro t
  induction t with
  | nil => intro r h; rw [findEnd] at h; exact absurd h (by simp)
  | cons c cs ih =>
    intro r h
    rw [findEnd] at h
    rcases hm : matchDecl e (c :: cs) with _ | r2
    · rw [hm] at h
      obtain ⟨j, r3, hj⟩ := ih h
      exact ⟨j + 1, r3, by rwa [List.drop_succ_cons]⟩
    · exact ⟨0, r2, by rwa [List.drop_zero]⟩

/-! ## Include probe insertion (src/godbolt.py, `_insert_include_probes`,
`_encode_header_name`) -/

def includeLit : List Char := ['i', 'n', 'c', 'l', 'u', 'd', 'e']

def startProbeLit : List Char :=
  ['_', '_', 'g', 'o', 'd', 'b', 'o', 'l', 't', '_',
   's', 't', 'a', 'r', 't', '_', 'p', 'r', 'o', 'b', 'e']

def endProbeLit : List Char :=
  ['_', '_', 'g', 'o', 'd', 'b', 'o', 'l', 't', '_',
   'e', 'n', 'd', '_', 'p', 'r', 'o', 'b', 'e']

def systemLit : List Char := ['s', 'y', 's', 't', 'e', 'm']

def localLit : List Char := ['l', 'o', 'c', 'a', 'l']

def periodLit : List Char := ['_', '_', 'P', 'E', 'R', 'I', 'O', 'D']

def slashLit : List Char := ['_', '_', 'S', 'L', 'A', 'S', 'H']

def backslashLit : List Char :=
  ['_', '_', 'B', 'A', 'C', 'K', 'S', 'L', 'A', 'S', 'H']

def startUnder : List Char := ['_', 's', 't', 'a', 'r', 't', '_']

def endUnder : List Char := ['_', 'e', 'n', 'd', '_']

/-- One character of `_encode_header_name`.  The three sequential
`str.replace` calls of the source commute with this per-character map
because no replacement block contains '.', '/' or a backslash. -/
def encodeChar (c : Char) : List Char :=
  if c = '.' then periodLit
  else if c = '/' then slashLit
  else if c = '\\' then backslashLit
  else [c]

def encodeHeader (p : List Char) : List Char := p.flatMap encodeChar

/-- Decimal digit character. -/
def digitCh (d : Nat) : Char := Char.ofNat (48 + d)

/-- Little-endian decimal digits with explicit fuel (the fuel keeps
the recursion structural, so the kernel can evaluate it). -/
def decDigits : Nat → Nat → List Char
  | 0, _ => []
  | _ + 1, 0 => []
  | f + 1, n + 1 => digitCh ((n + 1) % 10) :: decDigits f ((n + 1) / 10)

/-- Decimal representation of a probe counter (`f"{n}"`). -/
def decRepr (n : Nat) : List Char :=
  if n = 0 then ['0'] else (decDigits n n).reverse

def mkStart (n : Nat) (kind enc : List Char) : List Char :=
  startProbeLit ++ (decRepr n ++ '_' :: (kind ++ '_' :: enc))

def mkEnd (n : Nat) (kind enc : List Char) : List Char :=
  endProbeLit ++ (decRepr n ++ '_' :: (kind ++ '_' :: enc))

/-- Model of the include regex
`^(\s*)(#\s*include\s*)([<"])([^>"]+)([>"])` applied with `re.match`
(groups: indent, directive text, opening bracket, header path, closing
bracket; text after the closing bracket is not part of the match). -/
def parseInc (l : List Char) :
    Option (List Char × List Char × Char × List Char × Char) :=
  let ind := l.takeWhile wsChar
  match l.drop ind.length with
  | '#' :: r1 =>
    let w2 := r1.takeWhile wsChar
    match eatLit includeLit (r1.drop w2.length) with
    | none => none
    | some r2 =>
      let w3 := r2.takeWhile wsChar
      match r2.drop w3.length with
      | ob :: r3 =>
        if ob = '<' ∨ ob = '"' then
          let path := r3.takeWhile (fun c => ¬(c = '>' ∨ c = '"'))
          if path.isEmpty then none
          else
            match r3.drop path.length with
            | cb :: _ =>
              some (ind, '#' :: (w2 ++ includeLit ++ w3), ob, path, cb)
            | [] => none
        else none
      | [] => none
  | _ => none

def kindOf (ob : Char) : List Char := if ob = '<' then systemLit else localLit

/-- The per-line expansion of `_insert_include_probes`, with the probe
counter threaded; returns the instrumented lines and the recorded
(start marker, original include text) pairs in order. -/
def expandLines : Nat → List (List Char) →
    List (List Char) × List (List Char × List Char)
  | _, [] => ([], [])
  | c, l :: ls =>
    match parseInc l with
    | some (ind, dir, ob, path, cb) =>
      let enc := encodeHeader path
      let s := mkStart c (kindOf ob) enc
      let e := mkEnd c (kindOf ob) enc
      let pr := expandLines (c + 1) ls
      ((ind ++ declOf s) :: l :: (ind ++ declOf e) :: pr.1,
        (s, dir ++ ob :: (path ++ [cb])) :: pr.2)
    | none =>
      let pr := expandLines c ls
      (l :: pr.1, pr.2)

/-- Model of `_insert_include_probes` on the source text. -/
def insertIncludeProbes (src : List Char) :
    List Char × List (List Char × List Char) :=
  let pr := expandLines 1 (splitNl src)
  (joinNl pr.1, pr.2)

/-- The guard `re.match(r'__godbolt_start_probe(\d+)_(.+)', start)` of
the restoration loop. -/
def markerGuard (s : List Char) : Bool :=
  match eatLit startProbeLit s with
  | none => false
  | some r =>
    let ds := r.takeWhile Char.isDigit
    !ds.isEmpty &&
      (match r.drop ds.length with
       | '_' :: c :: _ => c ≠ '\n'
       | _ => false)

/-- Python `str.replace(pat, rep)` (all non-overlapping occurrences,
left to right). -/
def replaceLit (pat rep t : List Char) : List Char :=
  subAll (fun u => eatLit pat u) rep t

/-- One iteration of the restoration loop of
`_restore_includes_from_preprocessed` (the replacement string is the
original include text: the backslash-doubling of the source exactly
cancels `re.sub` escape processing). -/
def restoreOne (t : List Char) (pr : List Char × List Char) : List Char :=
  if markerGuard pr.1 then
    let e := replaceLit startUnder endUnder pr.1
    let t' := subAll (fun u => matchBoth pr.1 e u) pr.2 t
    if t' = t then subAll (fun u => matchDecl pr.1 u) pr.2 t else t'
  else t

/-- Model of `_restore_includes_from_preprocessed`. -/
def restoreIncludes (probes : List (List Char × List Char))
    (t : List Char) : List Char :=
  probes.foldl restoreOne t

/-- Insertion followed by restoration of the unmodified instrumented
text (the round trip of C2). -/
def roundTrip (src : List Char) : List Char :=
  restoreIncludes (insertIncludeProbes src).2 (insertIncludeProbes src).1

/-! ### Properties of the generated markers -/

theorem decRepr_ne_nil (n : Nat) : decRepr n ≠ [] := by
  rw [decRepr]
  split
  · simp
  · next h =>
    cases n with
    | zero => exact absurd rfl h
    | succ m =>
      simp only [ne_eq, List.reverse_eq_nil_iff]
      rw [decDigits]
      simp

theorem digitCh_isDigit {d : Nat} (h : d < 10) :
    (digitCh d).isDigit = true := by
  interval_cases d <;> decide

theorem decDigits_all_digit :
    ∀ f n : Nat, ∀ c ∈ decDigits f n, c.isDigit = true := by
  intro f
  induction f with
  | zero => intro n c hc; simp [decDigits] at hc
  | succ f ih =>
    intro n c hc
    cases n with
    | zero => simp [decDigits] at hc
    | succ m =>
      rw [decDigits] at hc
      rcases List.mem_cons.1 hc with h | h
      · rw [h]
        exact digitCh_isDigit (Nat.mod_lt _ (by norm_num))
      · exact ih _ c h

theorem decRepr_all_digit (n : Nat) :
    ∀ c ∈ decRepr n, c.isDigit = true := by
  intro c hc
  rw [decRepr] at hc
  split at hc
  · simp only [List.mem_singleton] at hc
    rw [hc]; decide
  · rw [List.mem_reverse] at hc
    exact decDigits_all_digit n n c hc

theorem decRepr_no_nl (n : Nat) : '\n' ∉ decRepr n := by
  intro h
  have := decRepr_all_digit n '\n' h
  exact absurd this (by decide)

theorem takeWhile_append_stop (p : Char → Bool) (a : List Char) (y : Char)
    (r : List Char) (ha : ∀ x ∈ a, p x = true) (hy : p y = false) :
    (a ++ y :: r).takeWhile p = a := by
  induction a with
  | nil => simp [List.takeWhile, hy]
  | cons c cs ih =>
    have hc := ha c (List.mem_cons_self c cs)
    rw [List.cons_append, List.takeWhile_cons, hc]
    simp only [if_true]
    rw [ih (fun x hx => ha x (List.mem_cons_of_mem c hx))]

theorem mkStart_guard (n : Nat) (kind enc : List Char)
    (hk : kind = systemLit ∨ kind = localLit) :
    markerGuard (mkStart n kind enc) = true := by
  rw [markerGuard, mkStart, eatLit_append]
  have hds : (decRepr n ++ '_' :: (kind ++ '_' :: enc)).takeWhile
      Char.isDigit = decRepr n :=
    takeWhile_append_stop _ _ _ _ (decRepr_all_digit n) (by decide)
  have hdrop : (decRepr n ++ '_' :: (kind ++ '_' :: enc)).drop
      (decRepr n).length = '_' :: (kind ++ '_' :: enc) := by
    have := List.drop_left (decRepr n) ('_' :: (kind ++ '_' :: enc))
    exact this
  simp only [hds, hdrop]
  obtain ⟨d, ds, hdds⟩ : ∃ d ds, decRepr n = d :: ds := by
    rcases hd : decRepr n with _ | ⟨d, ds⟩
    · exact absurd hd (decRepr_ne_nil n)
    · exact ⟨d, ds, rfl⟩
  rw [hdds]
  rcases hk with hk | hk <;> rw [hk] <;> simp [systemLit, localLit]

theorem mkStart_head (n : Nat) (kind enc : List Char) :
    ∃ tl, mkStart n kind enc = '_' :: tl ∧ wsChar '_' = false :=
  ⟨_, rfl, by decide⟩

theorem mkEnd_head (n : Nat) (kind enc : List Char) :
    ∃ tl, mkEnd n kind enc = '_' :: tl ∧ wsChar '_' = false :=
  ⟨_, rfl, by decide⟩

theorem mkStart_ne_nil (n : Nat) (kind enc : List Char) :
    mkStart n kind enc ≠ [] := by
  rw [mkStart]; simp [startProbeLit]

theorem mkEnd_ne_nil (n : Nat) (kind enc : List Char) :
    mkEnd n kind enc ≠ [] := by
  rw [mkEnd]; simp [endProbeLit]

theorem mkStart_no_nl {n : Nat} {kind enc : List Char}
    (hk : kind = systemLit ∨ kind = localLit) (he : '\n' ∉ enc) :
    '\n' ∉ mkStart n kind enc := by
  intro h
  rw [mkStart] at h
  rcases List.mem_append.1 h with h1 | h2
  · revert h1; decide
  · rcases List.mem_append.1 h2 with h3 | h4
    · exact absurd h3 (decRepr_no_nl n)
    · rcases List.mem_cons.1 h4 with h5 | h6
      · exact absurd h5 (by decide)
      · rcases List.mem_append.1 h6 with h7 | h8
        · rcases hk with hk | hk <;> rw [hk] at h7 <;> revert h7 <;> decide
        · rcases List.mem_cons.1 h8 with h9 | h10
          · exact absurd h9 (by decide)
          · exact he h10

theorem mkEnd_no_nl {n : Nat} {kind enc : List Char}
    (hk : kind = systemLit ∨ kind = localLit) (he : '\n' ∉ enc) :
    '\n' ∉ mkEnd n kind enc := by
  intro h
  rw [mkEnd] at h
  rcases List.mem_append.1 h with h1 | h2
  · revert h1; decide
  · rcases List.mem_append.1 h2 with h3 | h4
    · exact absurd h3 (decRepr_no_nl n)
    · rcases List.mem_cons.1 h4 with h5 | h6
      · exact absurd h5 (by decide)
      · rcases List.mem_append.1 h6 with h7 | h8
        · rcases hk with hk | hk <;> rw [hk] at h7 <;> revert h7 <;> decide
        · rcases List.mem_cons.1 h8 with h9 | h10
          · exact absurd h9 (by decide)
          · exact he h10

theorem encodeChar_no_nl {c : Char} (hc : c ≠ '\n') :
    '\n' ∉ encodeChar c := by
  intro h
  rw [encodeChar] at h
  split at h
  · revert h; decide
  · split at h
    · revert h; decide
    · split at h
      · revert h; decide
      · simp only [List.mem_singleton] at h
        exact hc h.symm

theorem encodeHeader_no_nl {p : List Char} (hp : '\n' ∉ p) :
    '\n' ∉ encodeHeader p := by
  intro h
  rw [encodeHeader, List.mem_flatMap] at h
  obtain ⟨c, hc, hmem⟩ := h
  exact encodeChar_no_nl (fun he => hp (he ▸ hc)) hmem

/-! ### The per-probe restoration lemmas -/

theorem count_one_pin {m T : List Char} (hm : m ≠ [])
    (hc : countOcc m T = 1) {P : Nat} (hP : occursAt m T P) :
    ∀ q, occursAt m T q → q = P :=
  fun _ hq => count_one_unique hm hc hq hP

theorem matchBoth_none {s e t : List Char} (h : matchDecl s t = none) :
    matchBoth s e t = none := by
  rw [matchBoth, h]
  rfl

theorem length_declOf (m : List Char) : (declOf m).length = m.length + 12 := by
  simp [declOf, voidLit]

theorem declOf_ne_nil (m : List Char) : declOf m ≠ [] := by
  simp [declOf, voidLit]

/-- A successful declaration match consumes an initial segment. -/
theorem matchDecl_suffix {m t r : List Char} (h : matchDecl m t = some r) :
    ∃ u, t = u ++ r := by
  rw [matchDecl] at h
  rcases h1 : eatLit voidLit t with _ | r1
  · rw [h1] at h; simp at h
  rw [h1, Option.some_bind] at h
  obtain ⟨w1, t2, hw1, -, -, hk1⟩ := wsPlusThen_eq h
  rcases h2 : eatLit m t2 with _ | r2
  · rw [h2] at hk1; simp at hk1
  rw [h2, Option.some_bind] at hk1
  obtain ⟨w2, t3, hw2, -, hk2⟩ := wsStarThen_eq hk1
  rcases h3 : eatLit ['('] t3 with _ | r3
  · rw [h3] at hk2; simp at hk2
  rw [h3, Option.some_bind] at hk2
  obtain ⟨w3, t4, hw3, -, hk3⟩ := wsStarThen_eq hk2
  have hsuf4 : ∃ u4, t4 = u4 ++ r := by
    rw [voidInner] at hk3
    rcases h4 : (eatLit voidLit t4).bind (wsStarThen (fun r =>
        (eatLit [')'] r).bind afterParen)) with _ | r4
    · rw [h4] at hk3
      rw [none_orElse_eq] at hk3
      rcases h5 : eatLit [')'] t4 with _ | r5
      · rw [h5] at hk3; simp at hk3
      rw [h5, Option.some_bind, afterParen] at hk3
      obtain ⟨w5, t6, hw5, -, hk5⟩ := wsStarThen_eq hk3
      have h6 := eatLit_eq_append hk5
      exact ⟨')' :: (w5 ++ [';']), by
        rw [eatLit_eq_append h5, hw5, h6]; simp⟩
    · rw [h4] at hk3
      have hr4 : r4 = r := Option.some.inj hk3
      subst hr4
      rcases h5 : eatLit voidLit t4 with _ | r5
      · rw [h5] at h4; simp at h4
      rw [h5, Option.some_bind] at h4
      obtain ⟨w5, t6, hw5, -, hk5⟩ := wsStarThen_eq h4
      rcases h6 : eatLit [')'] t6 with _ | r6
      · rw [h6] at hk5; simp at hk5
      rw [h6, Option.some_bind, afterParen] at hk5
      obtain ⟨w6, t7, hw6, -, hk6⟩ := wsStarThen_eq hk5
      have h7 := eatLit_eq_append hk6
      refine ⟨voidLit ++ (w5 ++ (')' :: (w6 ++ [';']))), ?_⟩
      rw [eatLit_eq_append h5, hw5, eatLit_eq_append h6, hw6, h7]
      simp
  obtain ⟨u4, hu4⟩ := hsuf4
  refine ⟨voidLit ++ (w1 ++ (m ++ (w2 ++ ('(' :: (w3 ++ u4))))), ?_⟩
  rw [eatLit_eq_append h1, hw1, eatLit_eq_append h2, hw2,
    eatLit_eq_append h3, hw3, hu4]
  simp

/-- Restoration of one probe whose full three-line span is present:
`pattern_both` matches exactly the inserted span (both markers occurring
nowhere else), and the whole span is replaced by the original include
text. -/
theorem restoreOne_span (A ind l B s e inc : List Char)
    (hguard : markerGuard s = true)
    (hrepl : replaceLit startUnder endUnder s = e)
    (hshead : ∃ hd tl, s = hd :: tl ∧ wsChar hd = false)
    (hehead : ∃ hd tl, e = hd :: tl ∧ wsChar hd = false)
    (hsuniq : countOcc s
      (A ++ ((declOf s ++ ('\n' :: (l ++ '\n' :: (ind ++ declOf e)))) ++ B))
      = 1)
    (heuniq : countOcc e
      (A ++ ((declOf s ++ ('\n' :: (l ++ '\n' :: (ind ++ declOf e)))) ++ B))
      = 1)
    (hlen : inc.length <
      (declOf s ++ ('\n' :: (l ++ '\n' :: (ind ++ declOf e)))).length) :
    restoreOne
      (A ++ ((declOf s ++ ('\n' :: (l ++ '\n' :: (ind ++ declOf e)))) ++ B))
      (s, inc) = A ++ (inc ++ B) := by
  obtain ⟨sh, st, hsst, hsw⟩ := hshead
  obtain ⟨eh, et, hest, hew⟩ := hehead
  have hs_ne : s ≠ [] := by rw [hsst]; simp
  have he_ne : e ≠ [] := by rw [hest]; simp
  -- abbreviations (as equalities, to move between shapes)
  have hT2 : A ++ ((declOf s ++ ('\n' :: (l ++ '\n' :: (ind ++ declOf e))))
      ++ B) = (A ++ (voidLit ++ [' '])) ++
      (s ++ (['(', 'v', 'o', 'i', 'd', ')', ';'] ++
        (('\n' :: (l ++ '\n' :: (ind ++ declOf e))) ++ B))) := by
    simp [declOf]
  have hT1 : A ++ ((declOf s ++ ('\n' :: (l ++ '\n' :: (ind ++ declOf e))))
      ++ B) = A ++ (voidLit ++ (' ' :: (s ++
      (['(', 'v', 'o', 'i', 'd', ')', ';'] ++
        (('\n' :: (l ++ '\n' :: (ind ++ declOf e))) ++ B))))) := by
    simp [declOf]
  have hocc_s : occursAt s
      (A ++ ((declOf s ++ ('\n' :: (l ++ '\n' :: (ind ++ declOf e))))
        ++ B)) (A.length + 5) := by
    have := occursAt_here (A ++ (voidLit ++ [' '])) s
      (['(', 'v', 'o', 'i', 'd', ')', ';'] ++
        (('\n' :: (l ++ '\n' :: (ind ++ declOf e))) ++ B))
    rw [← hT2] at this
    have hx5 : (A ++ (voidLit ++ [' '])).length = A.length + 5 := by
      simp [voidLit]
    rwa [hx5] at this
  have hpin_s_global : ∀ q, occursAt s
      (A ++ ((declOf s ++ ('\n' :: (l ++ '\n' :: (ind ++ declOf e))))
        ++ B)) q → q = A.length + 5 :=
    count_one_pin hs_ne hsuniq hocc_s
  have hpin_s : ∀ i r, matchDecl s
      ((A ++ ((declOf s ++ ('\n' :: (l ++ '\n' :: (ind ++ declOf e))))
        ++ B)).drop i) = some r → i = A.length := by
    intro i r h
    apply matchDecl_pin (m := s) (A := A)
      (u := ['(', 'v', 'o', 'i', 'd', ')', ';'] ++
        (('\n' :: (l ++ '\n' :: (ind ++ declOf e))) ++ B)) ?_ i r
    · rwa [← hT1]
    · intro q hq
      apply hpin_s_global
      rwa [hT1]
  -- the e-occurrence
  have hT3 : A ++ ((declOf s ++ ('\n' :: (l ++ '\n' :: (ind ++ declOf e))))
      ++ B) = ((A ++ (declOf s ++ ('\n' :: (l ++ ('\n' :: ind))))) ++
        (voidLit ++ [' '])) ++ (e ++ (['(', 'v', 'o', 'i', 'd', ')', ';']
        ++ B)) := by
    simp [declOf]
  have hocc_e : occursAt e
      (A ++ ((declOf s ++ ('\n' :: (l ++ '\n' :: (ind ++ declOf e))))
        ++ B))
      ((A ++ (declOf s ++ ('\n' :: (l ++ ('\n' :: ind))))).length + 5) := by
    have := occursAt_here
      ((A ++ (declOf s ++ ('\n' :: (l ++ ('\n' :: ind))))) ++
        (voidLit ++ [' '])) e
      (['(', 'v', 'o', 'i', 'd', ')', ';'] ++ B)
    rw [← hT3] at this
    have hx : ((A ++ (declOf s ++ ('\n' :: (l ++ ('\n' :: ind))))) ++
        (voidLit ++ [' '])).length =
        (A ++ (declOf s ++ ('\n' :: (l ++ ('\n' :: ind))))).length + 5 := by
      simp only [List.length_append, List.length_cons, voidLit,
        List.length_nil]
    rwa [hx] at this
  have hpin_e_global : ∀ q, occursAt e
      (A ++ ((declOf s ++ ('\n' :: (l ++ '\n' :: (ind ++ declOf e))))
        ++ B)) q →
      q = (A ++ (declOf s ++ ('\n' :: (l ++ ('\n' :: ind))))).length + 5 :=
    count_one_pin he_ne heuniq hocc_e
  -- the tail after the start declaration
  have hTX : A ++ ((declOf s ++ ('\n' :: (l ++ '\n' :: (ind ++ declOf e))))
      ++ B) = (A ++ declOf s) ++
        ((('\n' :: (l ++ '\n' :: (ind ++ declOf e)))) ++ B) := by
    simp
  have hXdecomp : (('\n' :: (l ++ '\n' :: (ind ++ declOf e)))) ++ B =
      ('\n' :: (l ++ ('\n' :: ind))) ++ (voidLit ++ (' ' :: (e ++
        (['(', 'v', 'o', 'i', 'd', ')', ';'] ++ B)))) := by
    simp [declOf]
  have hX2 : (('\n' :: (l ++ '\n' :: (ind ++ declOf e)))) ++ B =
      ('\n' :: (l ++ ('\n' :: ind))) ++ (declOf e ++ B) := by
    simp
  have hpin_e_local : ∀ j r, matchDecl e
      (((('\n' :: (l ++ '\n' :: (ind ++ declOf e)))) ++ B).drop j) =
      some r → j = ('\n' :: (l ++ ('\n' :: ind))).length := by
    intro j r h
    apply matchDecl_pin (m := e) (A := '\n' :: (l ++ ('\n' :: ind)))
      (u := ['(', 'v', 'o', 'i', 'd', ')', ';'] ++ B) ?_ j r
    · rwa [← hXdecomp]
    · intro q hq
      rw [← hXdecomp] at hq
      have hq2 := occursAt_shift (a := A ++ declOf s) hq
      rw [← hTX] at hq2
      have := hpin_e_global _ hq2
      simp only [List.length_append, List.length_cons, length_declOf]
        at this ⊢
      omega
  have hfind : findEnd e ((('\n' :: (l ++ '\n' :: (ind ++ declOf e)))) ++ B)
      = some B := by
    apply findEnd_of (('\n' :: (l ++ ('\n' :: ind))).length)
    · intro i hi
      rcases hm : matchDecl e
          (((('\n' :: (l ++ '\n' :: (ind ++ declOf e)))) ++ B).drop i) with
        _ | r
      · rfl
      · have := hpin_e_local i r hm
        omega
    · rw [hX2, List.drop_left, hest]
      exact matchDecl_decl eh et B hew
  have hmB : matchBoth s e
      ((declOf s ++ ('\n' :: (l ++ '\n' :: (ind ++ declOf e)))) ++ B) =
      some B := by
    rw [matchBoth]
    have hds : (declOf s ++ ('\n' :: (l ++ '\n' :: (ind ++ declOf e))))
        ++ B = declOf s ++
        ((('\n' :: (l ++ '\n' :: (ind ++ declOf e)))) ++ B) := by
      simp
    rw [hds, hsst]
    rw [matchDecl_decl sh st _ hsw, Option.some_bind]
    exact hfind
  have hspan_ne : declOf s ++ ('\n' :: (l ++ '\n' :: (ind ++ declOf e)))
      ≠ [] := by
    simp [declOf, voidLit]
  have hsub : subAll (fun u => matchBoth s e u) inc
      (A ++ ((declOf s ++ ('\n' :: (l ++ '\n' :: (ind ++ declOf e))))
        ++ B)) = A ++ (inc ++ B) := by
    apply subAll_single A _ B hspan_ne
    · intro i hi
      rcases hm : matchDecl s
          ((A ++ ((declOf s ++ ('\n' :: (l ++ '\n' :: (ind ++ declOf e))))
            ++ B)).drop i) with _ | r
      · exact matchBoth_none hm
      · have := hpin_s i r hm
        omega
    · exact hmB
    · intro i
      rcases hm : matchDecl s (B.drop i) with _ | r
      · exact matchBoth_none hm
      · exfalso
        have hdrop : B.drop i =
            ((A ++ ((declOf s ++ ('\n' :: (l ++ '\n' ::
              (ind ++ declOf e)))) ++ B))).drop
            ((A ++ (declOf s ++ ('\n' :: (l ++ '\n' ::
              (ind ++ declOf e))))).length + i) := by
          rw [drop_add]
          have : (A ++ ((declOf s ++ ('\n' :: (l ++ '\n' ::
              (ind ++ declOf e)))) ++ B)) =
              (A ++ (declOf s ++ ('\n' :: (l ++ '\n' ::
                (ind ++ declOf e))))) ++ B := by simp
          rw [this, List.drop_left]
        rw [hdrop] at hm
        have := hpin_s _ _ hm
        simp only [List.length_append, List.length_cons, length_declOf]
          at this
        omega
  -- assemble restoreOne
  rw [restoreOne]
  simp only [if_pos hguard, hrepl]
  rw [hsub]
  have hne : A ++ (inc ++ B) ≠
      A ++ ((declOf s ++ ('\n' :: (l ++ '\n' :: (ind ++ declOf e))))
        ++ B) := by
    intro heq
    have := congrArg List.length heq
    simp only [List.length_append] at this hlen
    omega
  rw [if_neg hne]

/-- Restoration of a probe whose end-marker declaration is absent:
`pattern_both` finds nothing and the fallback substitutes the include
text for the start-marker declaration alone, leaving everything after it
untouched. -/
theorem restoreOne_start_only (A B s inc : List Char)
    (hguard : markerGuard s = true)
    (hshead : ∃ hd tl, s = hd :: tl ∧ wsChar hd = false)
    (hnoend : hasSub (replaceLit startUnder endUnder s)
      (A ++ (declOf s ++ B)) = false)
    (hsuniq : countOcc s (A ++ (declOf s ++ B)) = 1) :
    restoreOne (A ++ (declOf s ++ B)) (s, inc) = A ++ (inc ++ B) := by
  obtain ⟨sh, st, hsst, hsw⟩ := hshead
  have hs_ne : s ≠ [] := by rw [hsst]; simp
  have hT1 : A ++ (declOf s ++ B) = A ++ (voidLit ++ (' ' :: (s ++
      (['(', 'v', 'o', 'i', 'd', ')', ';'] ++ B)))) := by
    simp [declOf]
  have hT2 : A ++ (declOf s ++ B) = (A ++ (voidLit ++ [' '])) ++
      (s ++ (['(', 'v', 'o', 'i', 'd', ')', ';'] ++ B)) := by
    simp [declOf]
  have hocc_s : occursAt s (A ++ (declOf s ++ B)) (A.length + 5) := by
    have := occursAt_here (A ++ (voidLit ++ [' '])) s
      (['(', 'v', 'o', 'i', 'd', ')', ';'] ++ B)
    rw [← hT2] at this
    have hx5 : (A ++ (voidLit ++ [' '])).length = A.length + 5 := by
      simp [voidLit]
    rwa [hx5] at this
  have hpin_s_global : ∀ q, occursAt s (A ++ (declOf s ++ B)) q →
      q = A.length + 5 :=
    count_one_pin hs_ne hsuniq hocc_s
  have hpin_s : ∀ i r, matchDecl s ((A ++ (declOf s ++ B)).drop i) =
      some r → i = A.length := by
    intro i r h
    apply matchDecl_pin (m := s) (A := A)
      (u := ['(', 'v', 'o', 'i', 'd', ')', ';'] ++ B) ?_ i r
    · rwa [← hT1]
    · intro q hq
      apply hpin_s_global
      rwa [hT1]
  have hboth_none : ∀ i, matchBoth s (replaceLit startUnder endUnder s)
      ((A ++ (declOf s ++ B)).drop i) = none := by
    intro i
    rcases hm : matchDecl s ((A ++ (declOf s ++ B)).drop i) with _ | r1
    · exact matchBoth_none hm
    · rw [matchBoth, hm, Option.some_bind]
      rcases hf : findEnd (replaceLit startUnder endUnder s) r1 with _ | r2
      · rfl
      · exfalso
        obtain ⟨j, r3, hj⟩ := findEnd_occurs hf
        obtain ⟨w, v, hdec, -, -⟩ := matchDecl_occurs hj
        obtain ⟨u, hu⟩ := matchDecl_suffix hm
        have hocc : occursAt (replaceLit startUnder endUnder s)
            (A ++ (declOf s ++ B))
            (i + (u.length + (j + (4 + w.length)))) := by
          rw [occursAt, drop_add, hu, drop_add, List.drop_left, drop_add,
            hdec]
          rw [show voidLit ++ (w ++ (replaceLit startUnder endUnder s ++ v))
            = (voidLit ++ w) ++ (replaceLit startUnder endUnder s ++ v) by
            simp]
          rw [show 4 + w.length = (voidLit ++ w).length by
            simp only [List.length_append, voidLit, List.length_cons,
              List.length_nil]]
          rw [List.drop_left]
          exact swL_append_self _ v
        have := hasSub_of_occursAt hocc
        simp [this] at hnoend
  have hsub_both : subAll
      (fun u => matchBoth s (replaceLit startUnder endUnder s) u) inc
      (A ++ (declOf s ++ B)) = A ++ (declOf s ++ B) :=
    subAll_nomatch hboth_none
  have hsub_start : subAll (fun u => matchDecl s u) inc
      (A ++ (declOf s ++ B)) = A ++ (inc ++ B) := by
    apply subAll_single A (declOf s) B (declOf_ne_nil s)
    · intro i hi
      rcases hm : matchDecl s ((A ++ (declOf s ++ B)).drop i) with _ | r
      · rfl
      · have := hpin_s i r hm
        omega
    · rw [hsst]
      exact matchDecl_decl sh st B hsw
    · intro i
      rcases hm : matchDecl s (B.drop i) with _ | r
      · rfl
      · exfalso
        have hdrop : B.drop i = (A ++ (declOf s ++ B)).drop
            ((A ++ declOf s).length + i) := by
          rw [drop_add]
          have : A ++ (declOf s ++ B) = (A ++ declOf s) ++ B := by simp
          rw [this, List.drop_left]
        rw [hdrop] at hm
        have := hpin_s _ _ hm
        simp only [List.length_append, length_declOf] at this
        omega
  rw [restoreOne]
  simp only [if_pos hguard]
  rw [hsub_both, if_pos rfl]
  exact hsub_start

/-! ### The round-trip induction (C2) -/

/-- Well-shapedness of the source lines for the round trip: every line
the include regex accepts is exactly the matched directive (no trailing
text after the closing bracket), and computing the end marker from the
start marker by the replace-all of `_start_` with `_end_` yields the
generated end marker (this fails when the encoded header path itself
contains the substring `_start_`). -/
def goodLinesB : Nat → List (List Char) → Bool
  | _, [] => true
  | c, l :: ls =>
    match parseInc l with
    | some (ind, dir, ob, path, cb) =>
      decide (l = ind ++ (dir ++ ob :: (path ++ [cb]))) &&
      decide (replaceLit startUnder endUnder
          (mkStart c (kindOf ob) (encodeHeader path)) =
        mkEnd c (kindOf ob) (encodeHeader path)) &&
      goodLinesB (c + 1) ls
    | none => goodLinesB c ls

/-- Text of the joined lines before a block, with the separating
newline when the prefix is non-empty. -/
def preA (pre : List (List Char)) : List Char :=
  if pre = [] then [] else joinNl pre ++ ['\n']

/-- Text of the joined lines after a block, with the separating newline
when the tail is non-empty. -/
def tailB (tl : List (List Char)) : List Char :=
  if tl = [] then [] else '\n' :: joinNl tl

theorem kindOf_cases (ob : Char) :
    kindOf ob = systemLit ∨ kindOf ob = localLit := by
  rw [kindOf]
  by_cases h : ob = '<'
  · left; rw [if_pos h]
  · right; rw [if_neg h]

theorem joinNl_eq_preA (pre : List (List Char)) :
    ∀ X : List (List Char), X ≠ [] →
      joinNl (pre ++ X) = preA pre ++ joinNl X := by
  induction pre with
  | nil => intro X _; simp [preA]
  | cons p ps ih =>
    intro X hX
    have hne : ps ++ X ≠ [] := fun h => hX (List.append_eq_nil.1 h).2
    rw [List.cons_append, joinNl_cons hne, ih X hX]
    cases ps with
    | nil => simp [preA, joinNl]
    | cons q qs =>
      simp only [preA, if_neg (show ¬(q :: qs : List (List Char)) = []
        by simp), if_neg (show ¬(p :: q :: qs : List (List Char)) = []
        by simp)]
      rw [joinNl_cons (show (q :: qs : List (List Char)) ≠ [] by simp) p]
      simp

theorem joinNl_cons_tailB (x : List Char) (tl : List (List Char)) :
    joinNl (x :: tl) = x ++ tailB tl := by
  cases tl with
  | nil => simp [joinNl, tailB]
  | cons y ys => rw [joinNl_cons (by simp), tailB, if_neg (by simp)]

theorem sum_ge_of_mem (f : List Char → Nat) :
    ∀ (L : List (List Char)) (x : List Char), x ∈ L →
      f x ≤ (L.map f).sum := by
  intro L
  induction L with
  | nil => intro x hx; simp at hx
  | cons a as ih =>
    intro x hx
    rcases List.mem_cons.1 hx with h | h
    · subst h; simp
    · have := ih x h
      simp only [List.map_cons, List.sum_cons]
      omega

/-- Every character of the header path matched by the include regex is
a character of the line. -/
theorem parseInc_sub {l ind dir path : List Char} {ob cb : Char}
    (hp : parseInc l = some (ind, dir, ob, path, cb)) :
    ∀ x ∈ path, x ∈ l := by
  simp only [parseInc] at hp
  split at hp
  · next r1 heq1 =>
    split at hp
    · simp at hp
    · next r2 heq2 =>
      split at hp
      · next ob' r3 heq3 =>
        split at hp
        · split at hp
          · simp at hp
          · split at hp
            · next cb' rest4 heq4 =>
              simp only [Option.some.injEq, Prod.mk.injEq] at hp
              obtain ⟨hind, hdir, hob, hpath, hcb⟩ := hp
              intro x hx
              rw [← hpath] at hx
              have h3 : x ∈ r3 :=
                (List.takeWhile_prefix _).subset hx
              have h3' : x ∈ ob' :: r3 := List.mem_cons_of_mem _ h3
              rw [← heq3] at h3'
              have h2 : x ∈ r2 := List.drop_subset _ _ h3'
              have h2' : x ∈ includeLit ++ r2 := by
                exact List.mem_append.2 (Or.inr h2)
              rw [← eatLit_eq_append heq2] at h2'
              have h1 : x ∈ r1 := List.drop_subset _ _ h2'
              have h1' : x ∈ '#' :: r1 := List.mem_cons_of_mem _ h1
              rw [← heq1] at h1'
              exact List.drop_subset _ _ h1'
            · simp at hp
        · simp at hp
      · simp at hp
  · simp at hp

theorem countOcc_declOf_pos (ind m : List Char) (hm : m ≠ []) :
    1 ≤ countOcc m (ind ++ declOf m) := by
  have h1 : ind ++ declOf m = (ind ++ (voidLit ++ [' '])) ++
      (m ++ ['(', 'v', 'o', 'i', 'd', ')', ';']) := by
    simp [declOf]
  have h2 := occursAt_here (ind ++ (voidLit ++ [' '])) m
    ['(', 'v', 'o', 'i', 'd', ')', ';']
  rw [← h1] at h2
  exact occursAt_countOcc_pos hm h2

theorem restoreIncludes_cons (p : List Char × List Char)
    (ps : List (List Char × List Char)) (t : List Char) :
    restoreIncludes (p :: ps) t = restoreIncludes ps (restoreOne t p) := rfl

/-- Shape of every recorded probe of a well-shaped expansion: its
marker is a generated start marker, the replace-all of the loop
computes the matching end marker, and both marker strings occur in some
instrumented line. -/
theorem expand_props (ls : List (List Char)) :
    ∀ c : Nat, goodLinesB c ls = true → (∀ l ∈ ls, '\n' ∉ l) →
      ∀ pr ∈ (expandLines c ls).2,
        ∃ n kind enc, pr.1 = mkStart n kind enc ∧
          replaceLit startUnder endUnder pr.1 = mkEnd n kind enc ∧
          (kind = systemLit ∨ kind = localLit) ∧ '\n' ∉ enc ∧
          (∃ dl ∈ (expandLines c ls).1,
            1 ≤ countOcc (mkStart n kind enc) dl) ∧
          (∃ dl ∈ (expandLines c ls).1,
            1 ≤ countOcc (mkEnd n kind enc) dl) := by
  induction ls with
  | nil => intro c _ _ pr hpr; simp [expandLines] at hpr
  | cons l ls ih =>
    intro c hgood hnl pr hpr
    rcases hp : parseInc l with _ | ⟨ind, dir, ob, path, cb⟩
    · simp only [goodLinesB, hp] at hgood
      simp only [expandLines, hp] at hpr ⊢
      obtain ⟨n, kind, enc, h1, h2, h3, h4, ⟨d1, hd1, hc1⟩, ⟨d2, hd2, hc2⟩⟩ :=
        ih c hgood (fun x hx => hnl x (List.mem_cons_of_mem _ hx)) pr hpr
      exact ⟨n, kind, enc, h1, h2, h3, h4,
        ⟨d1, List.mem_cons_of_mem _ hd1, hc1⟩,
        ⟨d2, List.mem_cons_of_mem _ hd2, hc2⟩⟩
    · simp only [goodLinesB, hp] at hgood
      rw [Bool.and_eq_true, Bool.and_eq_true] at hgood
      obtain ⟨⟨_, hQ⟩, hR⟩ := hgood
      have hrepl := of_decide_eq_true hQ
      simp only [expandLines, hp] at hpr ⊢
      rcases List.mem_cons.1 hpr with hh | ht
      · refine ⟨c, kindOf ob, encodeHeader path, by rw [hh], ?_,
          kindOf_cases ob, ?_, ?_, ?_⟩
        · rw [hh]; exact hrepl
        · apply encodeHeader_no_nl
          intro hx
          exact hnl l (List.mem_cons_self _ _) (parseInc_sub hp _ hx)
        · exact ⟨ind ++ declOf (mkStart c (kindOf ob) (encodeHeader path)),
            List.mem_cons_self _ _,
            countOcc_declOf_pos ind _ (mkStart_ne_nil _ _ _)⟩
        · refine ⟨ind ++ declOf (mkEnd c (kindOf ob) (encodeHeader path)),
            ?_, countOcc_declOf_pos ind _ (mkEnd_ne_nil _ _ _)⟩
          exact List.mem_cons_of_mem _ (List.mem_cons_of_mem _
            (List.mem_cons_self _ _))
      · obtain ⟨n, kind, enc, h1, h2, h3, h4, ⟨d1, hd1, hc1⟩,
          ⟨d2, hd2, hc2⟩⟩ :=
          ih (c + 1) hR (fun x hx => hnl x (List.mem_cons_of_mem _ hx)) pr ht
        refine ⟨n, kind, enc, h1, h2, h3, h4, ?_, ?_⟩
        · exact ⟨d1, List.mem_cons_of_mem _ (List.mem_cons_of_mem _
            (List.mem_cons_of_mem _ hd1)), hc1⟩
        · exact ⟨d2, List.mem_cons_of_mem _ (List.mem_cons_of_mem _
            (List.mem_cons_of_mem _ hd2)), hc2⟩

/-- Main induction of the round trip: restoring the recorded probes of
a well-shaped tail of lines, inside an instrumented text with an
arbitrary prefix of lines, recovers the prefix followed by the original
tail, provided each probe's start and end markers occur exactly once in
the whole text. -/
theorem restore_go (rest : List (List Char)) :
    ∀ (c : Nat) (pre : List (List Char)),
      goodLinesB c rest = true →
      (∀ l ∈ rest, '\n' ∉ l) →
      (∀ pr ∈ (expandLines c rest).2,
        countOcc pr.1 (joinNl (pre ++ (expandLines c rest).1)) = 1 ∧
        countOcc (replaceLit startUnder endUnder pr.1)
          (joinNl (pre ++ (expandLines c rest).1)) = 1) →
      restoreIncludes (expandLines c rest).2
        (joinNl (pre ++ (expandLines c rest).1)) = joinNl (pre ++ rest) := by
  induction rest with
  | nil => intro c pre _ _ _; simp [expandLines, restoreIncludes]
  | cons l ls ih =>
    intro c pre hgood hnl hcnt
    have hnl' : ∀ x ∈ ls, '\n' ∉ x :=
      fun x hx => hnl x (List.mem_cons_of_mem _ hx)
    have hassoc : ∀ X : List (List Char),
        pre ++ l :: X = (pre ++ [l]) ++ X := fun X => by simp
    rcases hp : parseInc l with _ | ⟨ind, dir, ob, path, cb⟩
    · simp only [goodLinesB, hp] at hgood
      simp only [expandLines, hp] at hcnt ⊢
      rw [hassoc (expandLines c ls).1, hassoc ls]
      exact ih c (pre ++ [l]) hgood hnl'
        (fun pr hpr => by
          have h := hcnt pr hpr
          rwa [hassoc (expandLines c ls).1] at h)
    · simp only [goodLinesB, hp] at hgood
      rw [Bool.and_eq_true, Bool.and_eq_true] at hgood
      obtain ⟨⟨hPd, hQd⟩, hR⟩ := hgood
      have hshape := of_decide_eq_true hPd
      have hrepl := of_decide_eq_true hQd
      simp only [expandLines, hp] at hcnt ⊢
      set S := mkStart c (kindOf ob) (encodeHeader path)
      set E := mkEnd c (kindOf ob) (encodeHeader path)
      set I := dir ++ ob :: (path ++ [cb])
      set E1 := (expandLines (c + 1) ls).1
      set E2 := (expandLines (c + 1) ls).2
      rw [restoreIncludes_cons]
      have hT : joinNl (pre ++ (ind ++ declOf S) :: l ::
          (ind ++ declOf E) :: E1) = (preA pre ++ ind) ++
          ((declOf S ++ ('\n' :: (l ++ '\n' :: (ind ++ declOf E)))) ++
            tailB E1) := by
        rw [joinNl_eq_preA pre _ (by simp),
          joinNl_cons (show l :: (ind ++ declOf E) :: E1 ≠ [] by simp)
            (ind ++ declOf S),
          joinNl_cons (show (ind ++ declOf E) :: E1 ≠ [] by simp) l,
          joinNl_cons_tailB]
        simp
      have hS1 : countOcc S (joinNl (pre ++ (ind ++ declOf S) :: l ::
          (ind ++ declOf E) :: E1)) = 1 :=
        (hcnt (S, I) (List.mem_cons_self _ _)).1
      have hEc : countOcc (replaceLit startUnder endUnder S)
          (joinNl (pre ++ (ind ++ declOf S) :: l ::
            (ind ++ declOf E) :: E1)) = 1 :=
        (hcnt (S, I) (List.mem_cons_self _ _)).2
      rw [hrepl] at hEc
      rw [hT] at hS1 hEc
      have hres : restoreOne (joinNl (pre ++ (ind ++ declOf S) :: l ::
          (ind ++ declOf E) :: E1)) (S, I) =
          (preA pre ++ ind) ++ (I ++ tailB E1) := by
        rw [hT]
        apply restoreOne_span (preA pre ++ ind) ind l (tailB E1) S E I
          (mkStart_guard c (kindOf ob) (encodeHeader path)
            (kindOf_cases ob))
          hrepl ?_ ?_ hS1 hEc ?_
        · obtain ⟨tl, ht1, ht2⟩ := mkStart_head c (kindOf ob)
            (encodeHeader path)
          exact ⟨'_', tl, ht1, ht2⟩
        · obtain ⟨tl, ht1, ht2⟩ := mkEnd_head c (kindOf ob)
            (encodeHeader path)
          exact ⟨'_', tl, ht1, ht2⟩
        · have hl2 : l.length = ind.length + I.length := by
            rw [hshape]; simp
          have h12 : (declOf S).length = S.length + 12 := length_declOf S
          have h13 : (declOf E).length = E.length + 12 := length_declOf E
          simp only [List.length_append, List.length_cons, h12, h13]
          omega
      have hres2 : (preA pre ++ ind) ++ (I ++ tailB E1) =
          joinNl (pre ++ l :: E1) := by
        rw [joinNl_eq_preA pre _ (by simp), joinNl_cons_tailB, hshape]
        simp
      rw [hres, hres2, hassoc E1, hassoc ls]
      apply ih (c + 1) (pre ++ [l]) hR hnl'
      intro pr hpr
      show countOcc pr.1 (joinNl ((pre ++ [l]) ++ E1)) = 1 ∧
        countOcc (replaceLit startUnder endUnder pr.1)
          (joinNl ((pre ++ [l]) ++ E1)) = 1
      obtain ⟨n, kind, enc, h1, h2, h3, h4, ⟨d1, hd1, hc1⟩,
        ⟨d2, hd2, hc2⟩⟩ := expand_props ls (c + 1) hR hnl' pr hpr
      have hm_ne : pr.1 ≠ [] := by rw [h1]; exact mkStart_ne_nil n kind enc
      have hm_nl : '\n' ∉ pr.1 := by rw [h1]; exact mkStart_no_nl h3 h4
      have he_ne : replaceLit startUnder endUnder pr.1 ≠ [] := by
        rw [h2]; exact mkEnd_ne_nil n kind enc
      have he_nl : '\n' ∉ replaceLit startUnder endUnder pr.1 := by
        rw [h2]; exact mkEnd_no_nl h3 h4
      have htot := hcnt pr (List.mem_cons_of_mem _ hpr)
      constructor
      · have ht := htot.1
        rw [countOcc_joinNl hm_ne hm_nl] at ht
        rw [countOcc_joinNl hm_ne hm_nl]
        simp only [List.map_append, List.map_cons, List.sum_append,
          List.sum_cons, List.map_nil, List.sum_nil] at ht ⊢
        have hself : countOcc pr.1 d1 ≤
            (E1.map (countOcc pr.1)).sum :=
          sum_ge_of_mem (countOcc pr.1) E1 d1 hd1
        have hge : 1 ≤ countOcc pr.1 d1 := by rw [h1]; exact hc1
        omega
      · have ht := htot.2
        rw [countOcc_joinNl he_ne he_nl] at ht
        rw [countOcc_joinNl he_ne he_nl]
        simp only [List.map_append, List.map_cons, List.sum_append,
          List.sum_cons, List.map_nil, List.sum_nil] at ht ⊢
        have hself : countOcc (replaceLit startUnder endUnder pr.1) d2 ≤
            (E1.map (countOcc (replaceLit startUnder endUnder pr.1))).sum :=
          sum_ge_of_mem (countOcc (replaceLit startUnder endUnder pr.1))
            E1 d2 hd2
        have hge : 1 ≤ countOcc (replaceLit startUnder endUnder pr.1) d2 := by
          rw [h2]; exact hc2
        omega

/-- C2 counterexample: the round trip is not the identity on every
source with include directives.  A trailing comment after the closing
bracket of the header is lost (the recorded include text is only the
matched part of the line), and a quoted header whose path contains the
substring under_start_under corrupts restoration, because the end
marker is computed from the start marker by a replace-all that also
rewrites the path encoding. -/
theorem c2_round_trip_cex :
    roundTrip "#include <a.h> //x\nint m;".data =
      "#include <a.h>\nint m;".data ∧
    roundTrip "#include <a.h> //x\nint m;".data ≠
      "#include <a.h> //x\nint m;".data ∧
    roundTrip "#include \x22a_start_b.h\x22".data ≠
      "#include \x22a_start_b.h\x22".data := by
  exact ⟨by decide, by decide, by decide⟩

/-- C2 (amended): the include-probe round trip returns the original
source provided every line accepted by the include regex consists
exactly of the matched directive (no text after the closing bracket),
the replace-all that derives each end marker from its start marker
yields the generated end marker, and every recorded start marker and
its derived end marker occur exactly once in the instrumented text.
This covers zero, one or many includes, both bracket forms, and header
paths with periods and slashes. -/
theorem c2_include_round_trip (src : List Char)
    (hgood : goodLinesB 1 (splitNl src) = true)
    (hcnt : ∀ pr ∈ (insertIncludeProbes src).2,
      countOcc pr.1 (insertIncludeProbes src).1 = 1 ∧
      countOcc (replaceLit startUnder endUnder pr.1)
        (insertIncludeProbes src).1 = 1) :
    roundTrip src = src := by
  have h := restore_go (splitNl src) 1 [] hgood (no_nl_mem_splitNl src)
    (fun pr hpr => hcnt pr hpr)
  exact h.trans (by rw [List.nil_append, joinNl_splitNl])

/-- Witness for C2 on a two-include source with a system header with a
period and a quoted header with a slash in its path. -/
theorem c2_include_round_trip_witness :
    roundTrip
      "#include <stdio.h>\n#include \x22sub/dir.h\x22\nint main(void);".data =
      "#include <stdio.h>\n#include \x22sub/dir.h\x22\nint main(void);".data :=
  c2_include_round_trip
    "#include <stdio.h>\n#include \x22sub/dir.h\x22\nint main(void);".data
    (by decide) (by decide)

/-- C3 counterexample: with the end marker absent, the code does not
delete the start-marker declaration — it substitutes the original
include text for it.  On a concrete text the result differs from the
deletion the claim describes. -/
theorem c3_fallback_cex :
    restoreOne
      "void __godbolt_start_probe1_system_a__PERIODh(void);\nint b;".data
      ("__godbolt_start_probe1_system_a__PERIODh".data,
        "#include <a.h>".data) = "#include <a.h>\nint b;".data ∧
    "#include <a.h>\nint b;".data ≠ "\nint b;".data := by
  constructor <;> decide

/-- C3 (amended): for a recorded probe whose start-marker declaration is
present (and whose marker occurs nowhere else) while its end marker is
absent from the preprocessed text, restoration replaces only the
start-marker declaration with the original include text (rather than
deleting it) and leaves the text after it untouched. -/
theorem c3_start_only_fallback (A B s inc : List Char)
    (hguard : markerGuard s = true)
    (hshead : ∃ hd tl, s = hd :: tl ∧ wsChar hd = false)
    (hnoend : hasSub (replaceLit startUnder endUnder s)
      (A ++ (declOf s ++ B)) = false)
    (hsuniq : countOcc s (A ++ (declOf s ++ B)) = 1) :
    restoreOne (A ++ (declOf s ++ B)) (s, inc) = A ++ (inc ++ B) :=
  restoreOne_start_only A B s inc hguard hshead hnoend hsuniq

/-- Witness for C3 at a concrete probe and text. -/
theorem c3_start_only_fallback_witness :
    restoreOne ("int a;\n".data ++
        (declOf "__godbolt_start_probe2_local_h__PERIODq".data ++
          "\nint c;".data))
      ("__godbolt_start_probe2_local_h__PERIODq".data,
        "#include \x22h.q\x22".data) =
      "int a;\n".data ++ ("#include \x22h.q\x22".data ++ "\nint c;".data) :=
  c3_start_only_fallback "int a;\n".data "\nint c;".data
    "__godbolt_start_probe2_local_h__PERIODq".data
    "#include \x22h.q\x22".data (by decide)
    ⟨'_', "_godbolt_start_probe2_local_h__PERIODq".data, by decide,
      by decide⟩
    (by decide) (by decide)

/-! ### The preprocess operation (C8) -/

/-- Python `str.strip()` (whitespace from both ends). -/
def pyStrip (t : List Char) : List Char :=
  ((t.dropWhile wsChar).reverse.dropWhile wsChar).reverse

/-- Model of `_extract_and_cache_macro_probes`: rebuild the value cache
from scratch, caching each probed name whose value extracts. -/
def extractAndCache (probes : List (List Char)) (t : List Char) :
    List (List Char × Int) :=
  probes.foldl (fun acc name =>
    match extractMacroProbeValue t name with
    | some v => acc ++ [(name, v)]
    | none => acc) []

/-- Model of `GodboltProject.preprocess`.  The remote POST is abstracted
by the oracle `api` (`none` models a network/HTTP/JSON failure of
`_post`, `some resp` a successful response).  Returns the success flag
and the final state. -/
def preprocessM (restoreInc trimEmpty : Bool) (api : Option Resp)
    (p : Proj) : Bool × Proj :=
  let ins := insertIncludeProbes p.source
  let p1 := if restoreInc then
      { p with
        source := ins.1
        originalSource := some p.source
        includeProbes := ins.2 }
    else p
  let p2 := if restoreInc then { p1 with source := p.source } else p1
  match api with
  | none => (false, p2)
  | some resp =>
    let p3 := { p2 with lastResponse := some resp }
    let p4 := if restoreInc then
        match resp.ppOutput with
        | some out =>
          let o1 := some (Resp.mk
            (some (restoreIncludes p3.includeProbes out)))
          { p3 with lastResponse := o1 }
        | none => p3
      else p3
    let p5 := if p4.macroProbes.isEmpty then p4
      else
        match p4.lastResponse with
        | some r =>
          match r.ppOutput with
          | some out =>
            let mv := extractAndCache p4.macroProbes out
            let o2 := some (Resp.mk
              (some (stripMacroProbes p4.macroProbes out)))
            { p4 with macroValues := mv, lastResponse := o2 }
          | none => p4
        | none => p4
    let p6 := if trimEmpty then
        match p5.lastResponse with
        | some r =>
          match r.ppOutput with
          | some out =>
            { p5 with lastResponse := some (Resp.mk (some (pyStrip out))) }
          | none => p5
        | none => p5
      else p5
    (true, p6)

/-- C8: after any call to preprocess with include restoration enabled,
the project's source field equals its value before the call, whether
the remote submission fails (`api = none`) or succeeds — the
instrumented text is installed only for the duration of the POST and
the original source is restored on both the error and the success
path. -/
theorem c8_preprocess_source_frame (trimEmpty : Bool)
    (api : Option Resp) (p : Proj) :
    (preprocessM true trimEmpty api p).2.source = p.source := by
  rcases api with _ | resp
  · simp [preprocessM]
  · simp only [preprocessM, if_true]
    rcases hpp : resp.ppOutput with _ | out <;>
      simp only [hpp] <;>
      (repeat' split) <;>
      rfl

end GodboltSpec
